import Mathlib

/-!
Verification of the milk-streamtelemetry-resample pipeline.

Stage 1 (`src/main.c`, `process_telemetry` and `scan_files`) builds a
frame-index manifest from timing files; stage 2 (`src/applyts.c` and the
extended assembler) consumes the manifest and accumulates overlap-weighted
image planes into an output cube.

The shallow embedding idealises the C `double`/`float` arithmetic as exact
rational arithmetic (ℚ) and models pixel buffers as functions `ℕ → ℚ`.
The external FITS store is modelled as a resolver returning a list of planes
per source name; writes to the output cube are recorded as an ordered list.
-/

namespace Resample

/-- The epsilon guard `1e-9` used by the cube assembler, as an exact rational. -/
def eps : ℚ := 1/1000000000

/-- A manifest record: one row of `<sname>.resample.txt`, exactly the seven
columns written by `process_telemetry` in `src/main.c`. -/
structure Rec where
  g : ℕ
  fs : ℚ
  fe : ℚ
  src : String
  l : ℤ
  rs : ℚ
  re : ℚ
  deriving DecidableEq, Repr

/-- One timing file handed to `process_telemetry`: its path, whether `fopen`
succeeds, and its parsed data rows (column 1, column 5). Comment lines and
rows where `sscanf` parses fewer than five numeric columns are already absent,
since the C loop skips them without any other effect. -/
structure TFile where
  path : String
  ok : Bool
  rows : List (ℤ × ℚ)
  deriving DecidableEq, Repr

/-- Basename extraction: the portion of the path after the last slash
(`strrchr(filepath, '/')` in `process_telemetry`), the whole path when no
slash occurs. -/
def basename (p : String) : String :=
  ⟨p.data.foldl (fun acc c => if c = '/' then [] else acc ++ [c]) []⟩

/-- Scanning state of `process_telemetry`: `prev` is `prev_frame_end`
(initialised to −1.0, and tested with `prev < 0` for "no previous frame"),
`g` is `frame_index`, and `out` collects the emitted manifest rows. -/
structure StScan where
  prev : ℚ
  g : ℕ
  out : List Rec
  deriving DecidableEq, Repr

/-- Body of the per-row loop of `process_telemetry` (src/main.c 354-406):
read `col5` as the frame end; if `prev_frame_end < 0` only record it;
otherwise emit the row when `[fs, fe)` overlaps `[tstart, tend)`, and always
update `prev_frame_end`. -/
def processRow (tstart tend dt : ℚ) (src : String) (st : StScan) (row : ℤ × ℚ) :
    StScan :=
  let fe := row.2
  if st.prev < 0 then { st with prev := fe }
  else
    let fs := st.prev
    if fs < tend ∧ tstart < fe then
      { prev := fe, g := st.g + 1,
        out := st.out ++ [⟨st.g, fs, fe, src, row.1, (fs - tstart)/dt, (fe - tstart)/dt⟩] }
    else { st with prev := fe }

/-- Body of the per-file loop of `process_telemetry` (src/main.c 342-409):
a file that cannot be opened is skipped (`continue`) with no change to the
scanning state; an opened file feeds every data row to the row loop, with
`src` the basename of its path. -/
def processFile (tstart tend dt : ℚ) (st : StScan) (f : TFile) : StScan :=
  if f.ok then f.rows.foldl (processRow tstart tend dt (basename f.path)) st
  else st

/-- The manifest builder `process_telemetry` (src/main.c 317-413): fold the
per-file loop over the scan list, starting from `prev_frame_end = -1` and
`frame_index = 0`. -/
def process_telemetry (tstart tend dt : ℚ) (files : List TFile) : StScan :=
  files.foldl (processFile tstart tend dt) ⟨-1, 0, []⟩

/-- The warnings `process_telemetry` prints to stderr: exactly one
"could not open" message per file whose `fopen` fails, in scan order. -/
def scanWarnings (files : List TFile) : List String :=
  (files.filter (fun f => !f.ok)).map
    (fun f => "Warning: Could not open input file " ++ f.path)

/-- Row-emission state as claim C2 words it: `prev_end` is an optional value
that starts undefined. -/
structure SpecSt where
  prev : Option ℚ
  g : ℕ
  out : List Rec
  deriving DecidableEq, Repr

/-- Row emission exactly as claim C2 states it: a row met while `prev_end`
is undefined is not emitted and defines `prev_end`; otherwise `fs = prev_end`,
`fe = column 5`, and the row is emitted iff `fs < tend ∧ fe > tstart`,
receiving the next contiguous index, `rs = (fs − tstart)/dt`,
`re = (fe − tstart)/dt`; `prev_end` is always updated to `fe`. -/
def specRow (tstart tend dt : ℚ) (src : String) (st : SpecSt) (row : ℤ × ℚ) :
    SpecSt :=
  match st.prev with
  | none => { st with prev := some row.2 }
  | some fs =>
    if fs < tend ∧ tstart < row.2 then
      { prev := some row.2, g := st.g + 1,
        out := st.out ++ [⟨st.g, fs, row.2, src, row.1,
                           (fs - tstart)/dt, (row.2 - tstart)/dt⟩] }
    else { st with prev := some row.2 }

/-- Stage-1 row emission as described by claim C2, folded over the surviving
(openable) files; `prev_end` carries across file boundaries. -/
def specEmission (tstart tend dt : ℚ) (files : List TFile) : SpecSt :=
  files.foldl
    (fun st f =>
      if f.ok then f.rows.foldl (specRow tstart tend dt (basename f.path)) st
      else st)
    ⟨none, 0, []⟩

/-- Correspondence between the C scanning state and the claim-level state:
same output and counter, and the sentinel `prev < 0` encodes "undefined". -/
def RelScan (st : StScan) (sst : SpecSt) : Prop :=
  st.out = sst.out ∧ st.g = sst.g ∧
    ((st.prev < 0 ∧ sst.prev = none) ∨ (0 ≤ st.prev ∧ sst.prev = some st.prev))

lemma relScan_row (tstart tend dt : ℚ) (src : String) (st : StScan) (sst : SpecSt)
    (row : ℤ × ℚ) (hrel : RelScan st sst) (hpos : 0 ≤ row.2) :
    RelScan (processRow tstart tend dt src st row) (specRow tstart tend dt src sst row) := by
  obtain ⟨ho, hg, hp⟩ := hrel
  rcases hp with ⟨hneg, hnone⟩ | ⟨hge, hsome⟩
  · simp only [processRow, specRow, hnone, if_pos hneg]
    exact ⟨ho, hg, Or.inr ⟨hpos, rfl⟩⟩
  · simp only [processRow, specRow, hsome, if_neg (not_lt.mpr hge)]
    by_cases hc : st.prev < tend ∧ tstart < row.2
    · simp only [if_pos hc]
      exact ⟨by simp [ho, hg], by simp [hg], Or.inr ⟨hpos, rfl⟩⟩
    · simp only [if_neg hc]
      exact ⟨ho, hg, Or.inr ⟨hpos, rfl⟩⟩

lemma relScan_rows (tstart tend dt : ℚ) (src : String) (rows : List (ℤ × ℚ)) :
    ∀ (st : StScan) (sst : SpecSt), RelScan st sst → (∀ r ∈ rows, 0 ≤ r.2) →
      RelScan (rows.foldl (processRow tstart tend dt src) st)
        (rows.foldl (specRow tstart tend dt src) sst) := by
  induction rows with
  | nil => intro st sst h _; exact h
  | cons r rest ih =>
    intro st sst h hpos
    exact ih _ _ (relScan_row _ _ _ _ _ _ _ h (hpos r (by simp)))
      (fun x hx => hpos x (by simp [hx]))

lemma relScan_files (tstart tend dt : ℚ) (files : List TFile) :
    ∀ (st : StScan) (sst : SpecSt), RelScan st sst →
      (∀ f ∈ files, ∀ r ∈ f.rows, 0 ≤ r.2) →
      RelScan (files.foldl (processFile tstart tend dt) st)
        (files.foldl
          (fun st f =>
            if f.ok then f.rows.foldl (specRow tstart tend dt (basename f.path)) st
            else st) sst) := by
  induction files with
  | nil => intro st sst h _; exact h
  | cons f rest ih =>
    intro st sst h hpos
    by_cases hok : f.ok
    · simp only [List.foldl_cons, processFile, if_pos hok]
      exact ih _ _ (relScan_rows _ _ _ _ _ _ _ h (hpos f (by simp)))
        (fun x hx => hpos x (by simp [hx]))
    · simp only [List.foldl_cons, processFile, if_neg hok]
      exact ih _ _ h (fun x hx => hpos x (by simp [hx]))

/-- Claim C2. Stage-1 row emission: for timing rows carrying nonnegative
epoch times (the C sentinel `prev_frame_end = -1` encodes "undefined"
exactly under that condition), the row loop of `process_telemetry` produces
precisely the rows described by the claim: an undefined `prev_end` suppresses
emission (in particular the first data row of the very first file), otherwise
the row with `fs = prev_end`, `fe = column 5` is emitted iff
`fs < tend ∧ fe > tstart`, with contiguous global index from 0,
`rs = (fs − tstart)/dt`, `re = (fe − tstart)/dt`, `src` the basename of the
current file and the local index as read; `prev_end` is always updated and
carries across file boundaries. -/
theorem c2_row_emission (tstart tend dt : ℚ) (files : List TFile)
    (hpos : ∀ f ∈ files, ∀ r ∈ f.rows, 0 ≤ r.2) :
    (process_telemetry tstart tend dt files).out =
      (specEmission tstart tend dt files).out :=
  (relScan_files tstart tend dt files _ _
    ⟨rfl, rfl, Or.inl ⟨by norm_num, rfl⟩⟩ hpos).1

def c2wFiles : List TFile :=
  [⟨"d/a_1.txt", true, [(0, 5), (1, 6), (2, 7)]⟩,
   ⟨"d/a_2.txt", true, [(0, 8)]⟩]

/-- Witness for C2 at a concrete two-file input. -/
theorem c2_row_emission_witness :
    (∀ f ∈ c2wFiles, ∀ r ∈ f.rows, 0 ≤ r.2) ∧
      (process_telemetry 4 10 1 c2wFiles).out =
        (specEmission 4 10 1 c2wFiles).out :=
  ⟨by intro f hf r hr; fin_cases hf <;> fin_cases hr <;> norm_num,
   c2_row_emission 4 10 1 c2wFiles
     (by intro f hf r hr; fin_cases hf <;> fin_cases hr <;> norm_num)⟩

def c4Files : List TFile :=
  [⟨"d/A.txt", true, [(0, 10), (1, 12)]⟩,
   ⟨"d/B.txt", false, [(0, 14)]⟩,
   ⟨"d/C.txt", true, [(0, 20)]⟩]

/-- Counterexample to claim C4: with file `B.txt` unreadable between two
readable files, the C code does NOT reset `prev_frame_end` at the failed
file (src/main.c 344-347 merely `continue`s), so the first data row of the
next successfully opened file `C.txt` IS emitted, with `fs = 12` carried
over from the last row of `A.txt`; the claim says it is never emitted. -/
theorem c4_counterexample :
    (process_telemetry 0 100 1 c4Files).out =
      [⟨0, 10, 12, "A.txt", 1, 10, 12⟩, ⟨1, 12, 20, "C.txt", 0, 12, 20⟩] := by
  norm_num [process_telemetry, c4Files, processFile, processRow, basename, List.foldl]
  decide

/-- Claim C4 as amended: an unreadable file is warned about and its frames
are omitted, but `prev_frame_end` is never reset — processing a scan list
containing an unopenable file is identical to processing the list with that
file removed: the rolling chain continues across the failed file, and the
first data row of the next successfully opened file is emitted whenever its
interval overlaps the window. -/
theorem c4_amended (tstart tend dt : ℚ) (before after : List TFile) (f : TFile)
    (hok : f.ok = false) :
    process_telemetry tstart tend dt (before ++ f :: after) =
        process_telemetry tstart tend dt (before ++ after) ∧
      scanWarnings (before ++ f :: after) =
        scanWarnings before ++
          ("Warning: Could not open input file " ++ f.path) :: scanWarnings after := by
  constructor
  · simp only [process_telemetry, List.foldl_append, List.foldl_cons]
    simp [processFile, hok]
  · simp [scanWarnings, List.filter_append, hok]

/-- Witness for the amended C4 at the concrete three-file input. -/
theorem c4_amended_witness :
    (⟨"d/B.txt", false, [((0:ℤ), (14:ℚ))]⟩ : TFile).ok = false ∧
      process_telemetry 0 100 1 c4Files =
        process_telemetry 0 100 1
          [⟨"d/A.txt", true, [(0, 10), (1, 12)]⟩, ⟨"d/C.txt", true, [(0, 20)]⟩] :=
  ⟨rfl,
   (c4_amended 0 100 1 [⟨"d/A.txt", true, [(0, 10), (1, 12)]⟩]
     [⟨"d/C.txt", true, [(0, 20)]⟩] ⟨"d/B.txt", false, [(0, 14)]⟩ rfl).1⟩

def c5Files : List TFile := [⟨"d/a.txt", true, [(0, 10), (1, 5)]⟩]

/-- Counterexample to claim C5: with non-monotone column-5 times
(10 followed by 5), `process_telemetry` emits a manifest row with
`fs = 10 > 5 = fe` — the code never checks `fs < fe`. -/
theorem c5_counterexample :
    (process_telemetry 0 100 1 c5Files).out = [⟨0, 10, 5, "a.txt", 1, 10, 5⟩] ∧
      ¬ ((10:ℚ) < 5) := by
  constructor
  · norm_num [process_telemetry, c5Files, processFile, processRow, List.foldl, basename]
    decide
  · norm_num

/-- The column-5 values that participate in the rolling chain: rows of the
openable files, in scan order. -/
def chainVals (files : List TFile) : List ℚ :=
  files.foldr (fun f acc => (if f.ok then f.rows.map Prod.snd else []) ++ acc) []

lemma c5_rows_aux (tstart tend dt : ℚ) (src : String) (rows : List (ℤ × ℚ)) :
    ∀ (st : StScan) (rest : List ℚ),
      (∀ r ∈ st.out, r.fs < r.fe ∧ r.fs < tend ∧ tstart < r.fe) →
      (st.prev < 0 ∨ ∀ x ∈ rows.map Prod.snd ++ rest, st.prev < x) →
      List.Pairwise (· < ·) (rows.map Prod.snd ++ rest) →
      (∀ r ∈ (rows.foldl (processRow tstart tend dt src) st).out,
          r.fs < r.fe ∧ r.fs < tend ∧ tstart < r.fe) ∧
        ((rows.foldl (processRow tstart tend dt src) st).prev < 0 ∨
          ∀ x ∈ rest, (rows.foldl (processRow tstart tend dt src) st).prev < x) := by
  induction rows with
  | nil => intro st rest hg hp _; exact ⟨hg, hp⟩
  | cons a rows ih =>
    intro st rest hg hp hm
    simp only [List.map_cons, List.cons_append, List.pairwise_cons] at hm
    obtain ⟨hhead, htail⟩ := hm
    have hnext : ∀ x ∈ rows.map Prod.snd ++ rest, a.2 < x := hhead
    by_cases hneg : st.prev < 0
    · simp only [List.foldl_cons, processRow, if_pos hneg]
      exact ih _ rest hg (Or.inr hnext) htail
    · have hlt : st.prev < a.2 := by
        rcases hp with h | h
        · exact absurd h hneg
        · exact h a.2 (by simp)
      simp only [List.foldl_cons, processRow, if_neg hneg]
      by_cases hc : st.prev < tend ∧ tstart < a.2
      · simp only [if_pos hc]
        refine ih _ rest ?_ (Or.inr hnext) htail
        intro r hr
        simp only [List.mem_append, List.mem_singleton] at hr
        rcases hr with hr | hr
        · exact hg r hr
        · subst hr; exact ⟨hlt, hc.1, hc.2⟩
      · simp only [if_neg hc]
        exact ih _ rest hg (Or.inr hnext) htail

lemma c5_files_aux (tstart tend dt : ℚ) (files : List TFile) :
    ∀ (st : StScan),
      (∀ r ∈ st.out, r.fs < r.fe ∧ r.fs < tend ∧ tstart < r.fe) →
      (st.prev < 0 ∨ ∀ x ∈ chainVals files, st.prev < x) →
      List.Pairwise (· < ·) (chainVals files) →
      ∀ r ∈ (files.foldl (processFile tstart tend dt) st).out,
        r.fs < r.fe ∧ r.fs < tend ∧ tstart < r.fe := by
  induction files with
  | nil => intro st hg _ _; exact hg
  | cons f rest ih =>
    intro st hg hp hm
    have hcv : chainVals (f :: rest) =
        (if f.ok then f.rows.map Prod.snd else []) ++ chainVals rest := rfl
    by_cases hok : f.ok
    · rw [hcv, if_pos hok] at hp hm
      simp only [List.foldl_cons, processFile, if_pos hok]
      obtain ⟨hg', hp'⟩ := c5_rows_aux tstart tend dt (basename f.path) f.rows st
        (chainVals rest) hg hp hm
      exact ih _ hg' hp' ((List.pairwise_append.mp hm).2.1)
    · rw [hcv, if_neg hok] at hp hm
      simp only [List.foldl_cons, processFile, if_neg hok]
      exact ih _ hg (by simpa using hp) (by simpa using hm)

lemma c5_guard_rows_aux (tstart tend dt : ℚ) (src : String) (rows : List (ℤ × ℚ)) :
    ∀ st : StScan,
      (∀ r ∈ st.out, r.fs < tend ∧ tstart < r.fe) →
      ∀ r ∈ (rows.foldl (processRow tstart tend dt src) st).out,
        r.fs < tend ∧ tstart < r.fe := by
  induction rows with
  | nil =>
    intro st hg
    exact hg
  | cons a rows ih =>
    intro st hg
    rw [List.foldl_cons]
    refine ih _ ?_
    by_cases hneg : st.prev < 0
    · simp only [processRow, if_pos hneg]
      exact hg
    · simp only [processRow, if_neg hneg]
      by_cases hc : st.prev < tend ∧ tstart < a.2
      · simp only [if_pos hc]
        intro r hr
        simp only [List.mem_append, List.mem_singleton] at hr
        rcases hr with hr | hr
        · exact hg r hr
        · subst hr
          exact hc
      · simp only [if_neg hc]
        exact hg

lemma c5_guard_files_aux (tstart tend dt : ℚ) (files : List TFile) :
    ∀ st : StScan,
      (∀ r ∈ st.out, r.fs < tend ∧ tstart < r.fe) →
      ∀ r ∈ (files.foldl (processFile tstart tend dt) st).out,
        r.fs < tend ∧ tstart < r.fe := by
  induction files with
  | nil =>
    intro st hg
    exact hg
  | cons f rest ih =>
    intro st hg
    rw [List.foldl_cons]
    by_cases hok : f.ok
    · simp only [processFile, if_pos hok]
      exact ih _ (c5_guard_rows_aux tstart tend dt (basename f.path) f.rows st hg)
    · simp only [processFile, if_neg hok]
      exact ih _ hg

/-- Claim C5 as amended: the window-overlap guards `fs < tend` and
`fe > tstart` hold for every manifest row regardless of the input contents —
they are the emission test itself — but `fs < fe` is not checked by the code
and holds only when the column-5 times met along the rolling chain are
strictly increasing (non-monotone input produces rows with `fs ≥ fe`, see
the counterexample). -/
theorem c5_amended (tstart tend dt : ℚ) (files : List TFile) :
    (∀ r ∈ (process_telemetry tstart tend dt files).out,
        r.fs < tend ∧ tstart < r.fe) ∧
      (List.Pairwise (· < ·) (chainVals files) →
        ∀ r ∈ (process_telemetry tstart tend dt files).out, r.fs < r.fe) := by
  constructor
  · exact c5_guard_files_aux tstart tend dt files _ (by simp)
  · intro hm r hr
    exact (c5_files_aux tstart tend dt files _ (by simp) (Or.inl (by norm_num))
      hm r hr).1

def c5wFiles : List TFile := [⟨"d/a.txt", true, [(0, 1), (1, 2)]⟩]

lemma c5w_out :
    (process_telemetry 0 100 1 c5wFiles).out = [⟨0, 1, 2, "a.txt", 1, 1, 2⟩] := by
  norm_num [process_telemetry, c5wFiles, processFile, processRow, List.foldl, basename]
  decide

/-- Witness for the amended C5 at a concrete input: the unconditional guards
on the emitted row, and `fs < fe` under the (satisfied) monotone chain. -/
theorem c5_amended_witness :
    ((1:ℚ) < 100 ∧ (0:ℚ) < 2) ∧ (1:ℚ) < 2 := by
  have h := c5_amended 0 100 1 c5wFiles
  have hm : List.Pairwise (· < ·) (chainVals c5wFiles) := by
    norm_num [chainVals, c5wFiles]
  constructor
  · exact h.1 ⟨0, 1, 2, "a.txt", 1, 1, 2⟩ (by rw [c5w_out]; simp)
  · exact h.2 hm ⟨0, 1, 2, "a.txt", 1, 1, 2⟩ (by rw [c5w_out]; simp)

/-- The file-list capacity of stage-1 discovery (src/main.c line 12). -/
def MAX_FILES : ℕ := 10000

/-- The retention step of `scan_files` (src/main.c 253-262): an eligible
directory entry is stored only while fewer than `MAX_FILES` entries are
recorded (`if (*count < MAX_FILES)`); otherwise it is skipped with no
warning and no error. `cands` lists the eligible entries (name match and
parsable filename time) in scan order. -/
def record_files {α : Type} (cands : List α) : List α :=
  cands.foldl (fun acc e => if acc.length < MAX_FILES then acc ++ [e] else acc) []

lemma record_files_go {α : Type} (N : ℕ) (l : List α) :
    ∀ acc : List α,
      l.foldl (fun acc e => if acc.length < N then acc ++ [e] else acc) acc =
        acc ++ l.take (N - acc.length) := by
  induction l with
  | nil => intro acc; simp
  | cons e l ih =>
    intro acc
    by_cases h : acc.length < N
    · obtain ⟨k, hk⟩ : ∃ k, N - acc.length = k + 1 := ⟨N - acc.length - 1, by omega⟩
      have hk2 : N - (acc ++ [e]).length = k := by simp; omega
      rw [List.foldl_cons, if_pos h, ih, hk, List.take_succ_cons, hk2]
      simp
    · rw [List.foldl_cons, if_neg h, ih]
      have : N - acc.length = 0 := by omega
      rw [this]
      simp

/-- Claim C10. Stage-1 discovery retains at most `MAX_FILES = 10000` entries:
the retention loop keeps exactly the first 10000 eligible entries in scan
order and silently drops every further one. -/
theorem c10_max_files {α : Type} (cands : List α) :
    record_files cands = cands.take MAX_FILES := by
  rw [record_files, record_files_go]
  simp

/-- The pivot-search loop of `scan_files` (src/main.c 277-282): the index of
the first sorted filename timestamp strictly greater than `tstart`, if any. -/
def firstGt (ts : List ℚ) (t : ℚ) : Option ℕ :=
  match ts with
  | [] => none
  | x :: rest => if t < x then some 0 else (firstGt rest t).map (· + 1)

/-- The scan-list start index computed by `scan_files` (src/main.c 276-293):
`start_idx = -1`, set to `i - 1` at the first timestamp exceeding `tstart`;
if still `-1` with a nonempty list whose last timestamp is at most `tstart`,
set to `count - 1`; clamp negatives to `0`; finally step back one file when
positive to include the predecessor file. -/
def start_idx (ts : List ℚ) (tstart : ℚ) : ℤ :=
  let s1 : ℤ :=
    match firstGt ts tstart with
    | some i => (i : ℤ) - 1
    | none => -1
  let s2 : ℤ :=
    if s1 = -1 ∧ ts ≠ [] ∧ ts.getLastD 0 ≤ tstart then (ts.length : ℤ) - 1 else s1
  let s3 : ℤ := if s2 < 0 then 0 else s2
  if 0 < s3 then s3 - 1 else s3

/-- The filter loop of `scan_files` (src/main.c 295-304): keep files from
`start_idx` on, stopping at the first filename timestamp beyond `tend`. -/
def scan_filter (ts : List ℚ) (tstart tend : ℚ) : List ℚ :=
  (ts.drop (start_idx ts tstart).toNat).takeWhile (fun x => decide (x ≤ tend))

lemma firstGt_eq_none (ts : List ℚ) (t : ℚ) (h : ∀ x ∈ ts, ¬ t < x) :
    firstGt ts t = none := by
  induction ts with
  | nil => rfl
  | cons a l ih =>
    rw [firstGt, if_neg (h a (by simp)), ih (fun x hx => h x (by simp [hx]))]
    rfl

lemma firstGt_eq_some (ts : List ℚ) (t : ℚ) (i : ℕ) (hi : i < ts.length)
    (hthis : t < ts.getD i 0) (hbefore : ∀ j < i, ¬ t < ts.getD j 0) :
    firstGt ts t = some i := by
  induction ts generalizing i with
  | nil => simp at hi
  | cons a l ih =>
    cases i with
    | zero =>
      rw [firstGt, if_pos (by simpa using hthis)]
    | succ k =>
      have hna : ¬ t < a := by simpa using hbefore 0 (Nat.succ_pos k)
      rw [firstGt, if_neg hna,
        ih k (by simpa using hi) (by simpa using hthis)
          (fun j hj => by simpa using hbefore (j+1) (by omega))]
      rfl

lemma getLastD_eq_getD (ts : List ℚ) (d : ℚ) (h : ts ≠ []) :
    ts.getLastD d = ts.getD (ts.length - 1) 0 := by
  induction ts generalizing d with
  | nil => simp at h
  | cons a l ih =>
    cases l with
    | nil => simp
    | cons b m =>
      rw [List.getLastD_cons, ih a (by simp)]
      simp

lemma getLastD_mem (ts : List ℚ) (d : ℚ) (h : ts ≠ []) : ts.getLastD d ∈ ts := by
  induction ts generalizing d with
  | nil => simp at h
  | cons a l ih =>
    cases l with
    | nil => simp
    | cons b m =>
      rw [List.getLastD_cons]
      exact List.mem_cons_of_mem a (ih a (by simp))

lemma takeWhile_eq_filter_of_sorted (c : ℚ) (l : List ℚ) (hs : List.Sorted (· ≤ ·) l) :
    l.takeWhile (fun x => decide (x ≤ c)) = l.filter (fun x => decide (x ≤ c)) := by
  induction l with
  | nil => rfl
  | cons a l ih =>
    rw [List.sorted_cons] at hs
    by_cases h : a ≤ c
    · rw [List.takeWhile_cons, List.filter_cons, if_pos (by simpa using h)]
      simp only [decide_eq_true_eq] at *
      rw [ih hs.2]
      simp [h]
    · rw [List.takeWhile_cons, List.filter_cons]
      have hfl : l.filter (fun x => decide (x ≤ c)) = [] := by
        rw [List.filter_eq_nil_iff]
        intro b hb
        simp only [decide_eq_true_eq]
        exact fun hbc => h (le_trans (hs.1 b hb) hbc)
      simp [h, hfl]

lemma sorted_getD_le (ts : List ℚ) (hs : List.Sorted (· ≤ ·) ts) (i j : ℕ)
    (hij : i ≤ j) (hj : j < ts.length) : ts.getD i 0 ≤ ts.getD j 0 := by
  rcases eq_or_lt_of_le hij with h | h
  · subst h; exact le_refl _
  · rw [List.getD_eq_getElem ts 0 (lt_trans h hj), List.getD_eq_getElem ts 0 hj]
    exact List.pairwise_iff_getElem.mp hs i j (lt_trans h hj) hj h

/-- Claim C8. On the sorted timestamp list, the scan list starts at `p − 1`
when the greatest index `p` with `T_f(p) ≤ tstart` is positive, at `p` when
`p = 0`; at the earliest file when no timestamp is at most `tstart`; and all
files with `T_f > tend` are dropped. -/
theorem c8_scan_selection (ts : List ℚ) (tstart tend : ℚ)
    (hs : List.Sorted (· ≤ ·) ts) :
    (∀ p : ℕ, p < ts.length → ts.getD p 0 ≤ tstart →
        (∀ j, j < ts.length → ts.getD j 0 ≤ tstart → j ≤ p) →
        start_idx ts tstart = if 0 < p then (p : ℤ) - 1 else (p : ℤ)) ∧
      ((∀ x ∈ ts, tstart < x) → start_idx ts tstart = 0) ∧
      scan_filter ts tstart tend =
        (ts.drop (start_idx ts tstart).toNat).filter (fun x => decide (x ≤ tend)) := by
  refine ⟨?_, ?_, ?_⟩
  · intro p hp hple hpmax
    rcases lt_or_eq_of_le (Nat.succ_le_of_lt hp) with hsucc | hlast
    · -- the pivot has a successor: the loop stops at index p+1
      have h1 : tstart < ts.getD (p+1) 0 := by
        by_contra hcon
        have := hpmax (p+1) hsucc (not_lt.mp hcon)
        omega
      have h2 : ∀ j < p + 1, ¬ tstart < ts.getD j 0 := by
        intro j hj
        exact not_lt.mpr (le_trans (sorted_getD_le ts hs j p (by omega) hp) hple)
      have hFG : firstGt ts tstart = some (p+1) := firstGt_eq_some ts tstart (p+1) hsucc h1 h2
      simp only [start_idx, hFG]
      split_ifs with hA hB hC hC hB hC hC
      all_goals try exact absurd hA.1 (by omega)
      all_goals omega
    · -- the pivot is the last element: the loop never breaks
      have hnone : firstGt ts tstart = none := by
        apply firstGt_eq_none
        intro x hx
        obtain ⟨j, hj, rfl⟩ := List.mem_iff_getElem.mp hx
        rw [← List.getD_eq_getElem ts 0 hj]
        exact not_lt.mpr (le_trans (sorted_getD_le ts hs j p (by omega) hp) hple)
      have hne : ts ≠ [] := List.ne_nil_of_length_pos (by omega)
      have hlastle : ts.getLastD 0 ≤ tstart := by
        rw [getLastD_eq_getD ts 0 hne]
        have hl1 : ts.length - 1 = p := by omega
        rw [hl1]; exact hple
      simp only [start_idx, hnone]
      split_ifs with hA hB hC hC hB hC hC
      all_goals try exact absurd ⟨trivial, hne, hlastle⟩ hA
      all_goals omega
  · intro hall
    cases ts with
    | nil => rfl
    | cons a l =>
      have hFG : firstGt (a :: l) tstart = some 0 := by
        rw [firstGt, if_pos (hall a (by simp))]
      have hlast : ¬ (a :: l).getLastD 0 ≤ tstart :=
        not_le.mpr (hall _ (getLastD_mem (a :: l) 0 (by simp)))
      simp only [start_idx, hFG]
      split_ifs with hA hB hC hC hB hC hC
      all_goals try exact absurd hA.2.2 hlast
      all_goals omega
  · rw [scan_filter]
    exact takeWhile_eq_filter_of_sorted tend _ (hs.sublist (List.drop_sublist _ _))

/-- Witness for C8 on the concrete sorted list `[1, 2, 5]` with pivot `p = 1`. -/
theorem c8_scan_selection_witness :
    List.Sorted (· ≤ ·) [(1:ℚ), 2, 5] ∧ start_idx [(1:ℚ), 2, 5] 2 = 0 := by
  have hs : List.Sorted (· ≤ ·) [(1:ℚ), 2, 5] := by norm_num
  refine ⟨hs, ?_⟩
  have h := (c8_scan_selection [(1:ℚ), 2, 5] 2 4 hs).1 1 (by norm_num)
    (by norm_num) ?_
  · norm_num at h
    exact h
  · intro j hj hle
    simp only [List.length_cons, List.length_nil] at hj
    interval_cases j
    · omega
    · omega
    · norm_num at hle

/-- A pixel buffer (one 2-D image plane), idealised as a map from pixel
index to value. -/
abbrev Plane : Type := ℕ → ℚ

/-- The all-zero plane, as produced by `calloc` and by the zero-initialised
output cube. -/
def zeroPlane : Plane := fun _ => 0

/-- An input image cube: its list of 2-D planes, 0-based. -/
abbrev Cube : Type := List Plane

/-- An active output frame of the assembler (`struct OutputFrame`,
src/applyts.c 8-12). -/
structure OFrame where
  idx : ℤ
  data : Plane

/-- Assembler state: `active` models the intrusive linked list of active
output frames with the head first (`get_output_frame` pushes new frames at
the head); `writes` records the planes written to the output cube, in write
order; `current` and `curr` model `current_fits_name` and the open input
cube handle. -/
structure St2 where
  active : List OFrame
  writes : List (ℤ × Plane)
  current : String
  curr : Option Cube

/-- The assembler's starting state: no active frames, nothing written, no
open input (`current_fits_name` empty). -/
def initSt2 : St2 := ⟨[], [], "", none⟩

/-- The first plane index touched by a record (src/applyts.c 253):
`(long)floor(r_start)`. -/
def k_start (r : Rec) : ℤ := ⌊r.rs⌋

/-- The last plane index touched by a record (src/applyts.c 254):
`(long)floor(r_end - 1e-9)`. -/
def k_end (r : Rec) : ℤ := ⌊r.re - eps⌋

/-- The overlap weight of record `r` on output plane `k`
(src/applyts.c 261-264): `fmin(r_end, k+1) - fmax(r_start, k)`. -/
def overlap (r : Rec) (k : ℤ) : ℚ := min r.re ((k : ℚ) + 1) - max r.rs (k : ℚ)

/-- The pixel accumulation loop `out_data[p] += input_buffer[p] * overlap`
(src/applyts.c 271-273) applied to buffer `d`. -/
def updData (w : ℚ) (buf : Plane) (d : Plane) : Plane :=
  fun p => d p + buf p * w

/-- One accumulation step: `get_output_frame` (find the frame for `k`, or
push a zero-initialised one at the head, src/applyts.c 25-40) followed by
the pixel loop `out[p] += in[p] * overlap` (src/applyts.c 271-273). -/
def add_contribution (act : List OFrame) (k : ℤ) (w : ℚ) (buf : Plane) :
    List OFrame :=
  if act.any (fun f => decide (f.idx = k)) then
    act.map (fun f =>
      if f.idx = k then ⟨f.idx, updData w buf f.data⟩ else f)
  else ⟨k, updData w buf zeroPlane⟩ :: act

/-- The flush pass `flush_frames` (src/applyts.c 43-79): walk the active
list from the head; every frame with `idx < thr` is written to its plane of
the output cube (in encounter order) and removed; the others stay in order. -/
def flush_frames (thr : ℤ) (st : St2) : St2 :=
  { st with
    writes := st.writes ++
      (st.active.filter (fun f => decide (f.idx < thr))).map (fun f => (f.idx, f.data)),
    active := st.active.filter (fun f => !decide (f.idx < thr)) }

/-- The plane indices `k_start r, ..., k_end r` visited by the distribution
loop (src/applyts.c 260). -/
def ksRange (r : Rec) : List ℤ :=
  (List.range (k_end r + 1 - k_start r).toNat).map (fun n : ℕ => k_start r + (n : ℤ))

/-- Opening the image for `src` and reading plane `ℓ` of it
(`fits_read_pix` at `fpixel = {1, 1, l_idx + 1}`, src/applyts.c 241-245):
fails when the file does not resolve or the plane does not exist. -/
def read_plane (resolver : String → Option Cube) (r : Rec) : Option Plane :=
  match resolver r.src with
  | none => none
  | some cube => if 0 ≤ r.l then cube.get? r.l.toNat else none

/-- One iteration of the assembler's record loop (src/applyts.c 201-275):
switch the open input when the source name differs from `current_fits_name`
(on open failure, clear the name and skip the record); read plane `ℓ` (on
read failure skip the record); flush active frames below `k_start`; then
distribute the plane onto `k_start..k_end` with positive overlap weight. -/
def step2 (resolver : String → Option Cube) (st : St2) (r : Rec) : St2 :=
  let st1 : St2 :=
    if r.src = st.current then st
    else
      match resolver r.src with
      | none => { st with current := "", curr := none }
      | some c => { st with current := r.src, curr := some c }
  match st1.curr with
  | none => st1
  | some cube =>
    match (if 0 ≤ r.l then cube.get? r.l.toNat else none) with
    | none => st1
    | some buf =>
      let st2 := flush_frames (k_start r) st1
      { st2 with
        active := (ksRange r).foldl
          (fun act k =>
            if 0 < overlap r k then add_contribution act k (overlap r k) buf
            else act)
          st2.active }

/-- The assembler: fold the record loop over the manifest, then flush every
remaining active frame (`flush_all_frames` uses threshold `2147483647`,
src/applyts.c 82-84 and 278). -/
def run_applyts (resolver : String → Option Cube) (m : List Rec) : St2 :=
  flush_frames 2147483647 (m.foldl (step2 resolver) initSt2)

/-- The value most recently written for plane `k`, if any. -/
def last_write (ws : List (ℤ × Plane)) (k : ℤ) : Option Plane :=
  ws.foldl (fun acc w => if w.1 = k then some w.2 else acc) none

/-- Plane `k` of the finished output cube: the last value written there, or
the zero plane the cube was created with. -/
def cube_plane (resolver : String → Option Cube) (m : List Rec) (k : ℤ) : Plane :=
  (last_write (run_applyts resolver m).writes k).getD zeroPlane

/-- Pass 1 of the assembler (src/applyts.c 109-126): the running maximum of
`(long)floor(r_end - 1e-9)` over the manifest rows, starting from −1. -/
def max_out_idx (m : List Rec) : ℤ :=
  m.foldl (fun acc r => if k_end r > acc then k_end r else acc) (-1)

/-- The depth (`NAXIS3`) of the created output cube: `max_out_idx + 1`
(src/applyts.c 192). -/
def cube_depth (m : List Rec) : ℤ := max_out_idx m + 1

/-- The overlap weight as the specification states it:
`max(0, min(re, k+1) − max(rs, k))`. -/
def spec_overlap (r : Rec) (k : ℤ) : ℚ := max 0 (overlap r k)

/-- The per-record contribution to plane `k` that the assembler actually
performs: zero when the record's image cannot be opened or read, and zero
when `k` lies outside `[k_start, k_end]` or the weight is not positive. -/
def rec_contrib (resolver : String → Option Cube) (r : Rec) (k : ℤ) : Plane :=
  match read_plane resolver r with
  | none => zeroPlane
  | some buf =>
    if k_start r ≤ k ∧ k ≤ k_end r ∧ 0 < overlap r k then
      fun p => buf p * overlap r k
    else zeroPlane

/-- The sum over the manifest of the contributions the assembler performs. -/
def sum_contrib (resolver : String → Option Cube) (m : List Rec) (k : ℤ) : Plane :=
  m.foldl (fun acc r => fun p => acc p + rec_contrib resolver r k p) zeroPlane

/-- The unrestricted overlap-weighted sum stated by claim C1:
`Σ_i max(0, min(re_i, k+1) − max(rs_i, k)) · plane_i` over the records with
readable planes. -/
def ideal_sum (resolver : String → Option Cube) (m : List Rec) (k : ℤ) : Plane :=
  m.foldl
    (fun acc r =>
      match read_plane resolver r with
      | none => acc
      | some buf => fun p => acc p + buf p * spec_overlap r k)
    zeroPlane

/-- The active frame for plane `k`, if present (the lookup loop of
`get_output_frame`). -/
def findFrame (act : List OFrame) (k : ℤ) : Option OFrame :=
  act.find? (fun f => decide (f.idx = k))

/-- The total value accumulated for plane `k` in a state: its active buffer
when plane `k` is active, else the last value written for it, else zero. -/
def got (st : St2) (k : ℤ) : Plane :=
  match findFrame st.active k with
  | some f => f.data
  | none => (last_write st.writes k).getD zeroPlane

/-- The contiguous descending run of plane indices `[hi, hi-1, ..., lo]`. -/
def descList (hi lo : ℤ) : List ℤ :=
  (List.range (hi + 1 - lo).toNat).map (fun n : ℕ => hi - (n : ℤ))

/-- The plane indices of the active list, head first. -/
def idxs (st : St2) : List ℤ := st.active.map OFrame.idx

lemma descList_nil (hi lo : ℤ) (h : hi < lo) : descList hi lo = [] := by
  have h0 : (hi + 1 - lo).toNat = 0 := by omega
  rw [descList, h0]
  rfl

lemma descList_cons (hi lo : ℤ) (h : lo ≤ hi) :
    descList hi lo = hi :: descList (hi - 1) lo := by
  have h1 : (hi + 1 - lo).toNat = (hi - 1 + 1 - lo).toNat + 1 := by omega
  rw [descList, h1, List.range_succ_eq_map, List.map_cons, List.map_map, descList]
  congr 1
  · push_cast
    ring
  · apply List.map_congr_left
    intro n _
    simp only [Function.comp_apply]
    push_cast
    omega

lemma mem_descList (hi lo x : ℤ) : x ∈ descList hi lo ↔ lo ≤ x ∧ x ≤ hi := by
  rw [descList]
  simp only [List.mem_map, List.mem_range]
  constructor
  · rintro ⟨n, hn, rfl⟩
    omega
  · rintro ⟨h1, h2⟩
    refine ⟨(hi - x).toNat, by omega, by omega⟩

lemma descList_chain (hi lo : ℤ) : List.Chain' (· > ·) (descList hi lo) := by
  by_cases h : hi < lo
  · rw [descList_nil hi lo h]; exact List.chain'_nil
  · push_neg at h
    obtain ⟨n, hn⟩ : ∃ n : ℕ, hi - lo = n := ⟨(hi - lo).toNat, by omega⟩
    induction n generalizing hi with
    | zero =>
      rw [descList_cons hi lo (by omega), descList_nil _ _ (by omega)]
      exact List.chain'_singleton hi
    | succ k ih =>
      rw [descList_cons hi lo (by omega)]
      have htail := ih (hi - 1) (by omega) (by omega)
      apply List.Chain'.cons' htail
      intro y hy
      have : y ∈ descList (hi - 1) lo := List.mem_of_mem_head? hy
      rw [mem_descList] at this
      omega

lemma descList_nodup (hi lo : ℤ) : (descList hi lo).Nodup := by
  rw [descList]
  refine List.Nodup.map ?_ (List.nodup_range _)
  intro a b hab
  have hab2 : (a : ℤ) = b := by
    dsimp only at hab
    omega
  exact_mod_cast hab2

lemma length_descList (hi lo : ℤ) : (descList hi lo).length = (hi + 1 - lo).toNat := by
  rw [descList, List.length_map, List.length_range]

lemma filter_descList_lt (hi lo thr : ℤ) (h : lo ≤ thr) :
    (descList hi lo).filter (fun x => decide (x < thr)) =
      descList (min hi (thr - 1)) lo := by
  by_cases hlt : hi < lo
  · rw [descList_nil hi lo hlt, descList_nil _ _ (by omega)]
    rfl
  · push_neg at hlt
    obtain ⟨n, hn⟩ : ∃ n : ℕ, hi - lo = n := ⟨(hi - lo).toNat, by omega⟩
    induction n generalizing hi with
    | zero =>
      rw [descList_cons hi lo (by omega), descList_nil (hi - 1) lo (by omega),
        List.filter_cons]
      by_cases hh : hi < thr
      · rw [if_pos (by simpa using hh), descList_cons _ _ (by omega),
          descList_nil _ _ (by omega)]
        simp only [List.filter_nil, min_eq_left (by omega : hi ≤ thr - 1)]
      · rw [if_neg (by simpa using hh), descList_nil _ _ (by omega)]
        simp
    | succ k ih =>
      rw [descList_cons hi lo (by omega), List.filter_cons]
      by_cases hh : hi < thr
      · rw [if_pos (by simpa using hh), ih (hi - 1) (by omega) (by omega),
          min_eq_left (by omega : hi ≤ thr - 1),
          min_eq_left (by omega : hi - 1 ≤ thr - 1), descList_cons hi lo (by omega)]
      · rw [if_neg (by simpa using hh), ih (hi - 1) (by omega) (by omega)]
        have h1 : min hi (thr - 1) = thr - 1 := by omega
        have h2 : min (hi - 1) (thr - 1) = thr - 1 := by omega
        rw [h1, h2]

lemma filter_descList_ge (hi lo thr : ℤ) (h : lo ≤ thr) :
    (descList hi lo).filter (fun x => !decide (x < thr)) = descList hi thr := by
  by_cases hlt : hi < lo
  · rw [descList_nil hi lo hlt, descList_nil _ _ (by omega)]
    rfl
  · push_neg at hlt
    obtain ⟨n, hn⟩ : ∃ n : ℕ, hi - lo = n := ⟨(hi - lo).toNat, by omega⟩
    induction n generalizing hi with
    | zero =>
      rw [descList_cons hi lo (by omega), descList_nil (hi - 1) lo (by omega),
        List.filter_cons]
      by_cases hh : hi < thr
      · rw [if_neg (by simpa using hh), descList_nil _ _ (by omega)]
        rfl
      · rw [if_pos (by simpa using hh), descList_cons _ _ (by omega),
          descList_nil _ _ (by omega)]
        rfl
    | succ k ih =>
      rw [descList_cons hi lo (by omega), List.filter_cons]
      by_cases hh : hi < thr
      · rw [if_neg (by simpa using hh), ih (hi - 1) (by omega) (by omega),
          descList_nil hi thr hh, descList_nil (hi - 1) thr (by omega)]
      · rw [if_pos (by simpa using hh), ih (hi - 1) (by omega) (by omega),
          descList_cons hi thr (by omega)]

lemma map_idx_filter (act : List OFrame) (p : ℤ → Bool) :
    (act.filter (fun f => p f.idx)).map OFrame.idx = (act.map OFrame.idx).filter p := by
  induction act with
  | nil => rfl
  | cons f rest ih =>
    rw [List.filter_cons, List.map_cons, List.filter_cons]
    by_cases h : p f.idx
    · rw [if_pos h, if_pos h, List.map_cons, ih]
    · rw [if_neg h, if_neg h, ih]

lemma findFrame_cons_self (f : OFrame) (act : List OFrame) (k : ℤ) (h : f.idx = k) :
    findFrame (f :: act) k = some f := by
  rw [findFrame, List.find?_cons_of_pos]
  simp [h]

lemma findFrame_cons_ne (f : OFrame) (act : List OFrame) (k : ℤ) (h : f.idx ≠ k) :
    findFrame (f :: act) k = findFrame act k := by
  rw [findFrame, List.find?_cons_of_neg, findFrame]
  simp [h]

lemma findFrame_eq_none (act : List OFrame) (k : ℤ) (h : ∀ f ∈ act, f.idx ≠ k) :
    findFrame act k = none := by
  rw [findFrame, List.find?_eq_none]
  intro f hf
  simp [h f hf]

lemma findFrame_isSome_of_any (act : List OFrame) (k : ℤ)
    (h : act.any (fun f => decide (f.idx = k)) = true) :
    ∃ f, findFrame act k = some f ∧ f.idx = k := by
  induction act with
  | nil => simp at h
  | cons f rest ih =>
    by_cases hf : f.idx = k
    · exact ⟨f, findFrame_cons_self f rest k hf, hf⟩
    · rw [findFrame_cons_ne f rest k hf]
      apply ih
      simp only [List.any_cons, Bool.or_eq_true] at h
      rcases h with h | h
      · exact absurd (by simpa using h) hf
      · exact h

lemma findFrame_none_of_not_any (act : List OFrame) (k : ℤ)
    (h : ¬ act.any (fun f => decide (f.idx = k)) = true) :
    findFrame act k = none := by
  apply findFrame_eq_none
  intro f hf hk
  exact h (List.any_eq_true.mpr ⟨f, hf, by simp [hk]⟩)

lemma findFrame_map_upd_self (act : List OFrame) (k : ℤ) (u : Plane → Plane) :
    findFrame (act.map (fun f => if f.idx = k then ⟨f.idx, u f.data⟩ else f)) k =
      (findFrame act k).map (fun f => if f.idx = k then ⟨f.idx, u f.data⟩ else f) := by
  induction act with
  | nil => rfl
  | cons f rest ih =>
    rw [List.map_cons]
    by_cases hf : f.idx = k
    · rw [findFrame_cons_self _ _ k (by simp [hf]), findFrame_cons_self f rest k hf]
      rfl
    · rw [findFrame_cons_ne _ _ k (by simp [hf]), findFrame_cons_ne f rest k hf, ih]

lemma findFrame_map_upd_ne (act : List OFrame) (k k' : ℤ) (u : Plane → Plane)
    (h : k' ≠ k) :
    findFrame (act.map (fun f => if f.idx = k then ⟨f.idx, u f.data⟩ else f)) k' =
      findFrame act k' := by
  induction act with
  | nil => rfl
  | cons f rest ih =>
    rw [List.map_cons]
    by_cases hf : f.idx = k'
    · have hfk : ¬ f.idx = k := by rw [hf]; exact h
      rw [if_neg hfk, findFrame_cons_self f _ k' hf, findFrame_cons_self f rest k' hf]
    · by_cases hfk : f.idx = k
      · rw [if_pos hfk, findFrame_cons_ne _ _ k' (by simpa using fun hh => hf hh),
          findFrame_cons_ne f rest k' hf, ih]
      · rw [if_neg hfk, findFrame_cons_ne f _ k' hf, findFrame_cons_ne f rest k' hf, ih]

lemma last_write_foldl (k : ℤ) (ws : List (ℤ × Plane)) :
    ∀ init : Option Plane,
      ws.foldl (fun acc w => if w.1 = k then some w.2 else acc) init =
        match last_write ws k with
        | some v => some v
        | none => init := by
  induction ws with
  | nil => intro init; rfl
  | cons w rest ih =>
    intro init
    rw [List.foldl_cons, ih]
    have hrw : last_write (w :: rest) k =
        match last_write rest k with
        | some v => some v
        | none => if w.1 = k then some w.2 else none := by
      rw [show last_write (w :: rest) k =
            rest.foldl (fun acc w => if w.1 = k then some w.2 else acc)
              (if w.1 = k then some w.2 else none) from rfl, ih]
    rw [hrw]
    rcases last_write rest k with _ | v
    · by_cases hw : w.1 = k
      · simp [hw]
      · simp [hw]
    · rfl

lemma last_write_append (a b : List (ℤ × Plane)) (k : ℤ) :
    last_write (a ++ b) k =
      match last_write b k with
      | some v => some v
      | none => last_write a k := by
  rw [last_write, List.foldl_append, ← last_write, last_write_foldl]

lemma last_write_of_not_mem (ws : List (ℤ × Plane)) (k : ℤ)
    (h : k ∉ ws.map Prod.fst) : last_write ws k = none := by
  induction ws with
  | nil => rfl
  | cons w rest ih =>
    simp only [List.map_cons, List.mem_cons, not_or] at h
    rw [last_write, List.foldl_cons, if_neg (fun hh => h.1 hh.symm), ← last_write]
    exact ih h.2

lemma last_write_cons_ne (w : ℤ × Plane) (ws : List (ℤ × Plane)) (k : ℤ)
    (h : w.1 ≠ k) : last_write (w :: ws) k = last_write ws k := by
  rw [last_write, List.foldl_cons, if_neg h, ← last_write]

lemma last_write_map_frames (fl : List OFrame) (k : ℤ)
    (hnd : (fl.map OFrame.idx).Nodup) (f : OFrame)
    (hf : findFrame fl k = some f) :
    last_write (fl.map (fun f => (f.idx, f.data))) k = some f.data := by
  induction fl with
  | nil => simp [findFrame] at hf
  | cons f0 rest ih =>
    simp only [List.map_cons, List.nodup_cons] at hnd
    by_cases h0 : f0.idx = k
    · rw [findFrame_cons_self f0 rest k h0] at hf
      obtain rfl : f0 = f := by injection hf
      simp only [List.map_cons, last_write, List.foldl_cons]
      rw [if_pos (show ((f0.idx, f0.data).1 = k) from h0), last_write_foldl,
        last_write_of_not_mem]
      · intro hmemk
        simp only [List.map_map, List.mem_map, Function.comp_apply] at hmemk
        obtain ⟨g, hg, hgk⟩ := hmemk
        apply hnd.1
        have hfg : f0.idx = g.idx := by rw [h0, hgk]
        rw [hfg]
        exact List.mem_map_of_mem OFrame.idx hg
    · rw [findFrame_cons_ne f0 rest k h0] at hf
      rw [List.map_cons, last_write_cons_ne _ _ k h0]
      exact ih hnd.2 hf

lemma findFrame_filter_keep (act : List OFrame) (k thr : ℤ) (h : ¬ k < thr) :
    findFrame (act.filter (fun f => !decide (f.idx < thr))) k = findFrame act k := by
  induction act with
  | nil => rfl
  | cons f0 rest ih =>
    rw [List.filter_cons]
    by_cases h0 : f0.idx = k
    · rw [if_pos (by simp [h0, h]), findFrame_cons_self f0 _ k h0,
        findFrame_cons_self f0 rest k h0]
    · by_cases hkeep : (f0.idx < thr)
      · rw [if_neg (by simp [hkeep]), findFrame_cons_ne f0 rest k h0, ih]
      · rw [if_pos (by simp [hkeep]), findFrame_cons_ne f0 _ k h0,
          findFrame_cons_ne f0 rest k h0, ih]

lemma findFrame_filter_flushed (act : List OFrame) (k thr : ℤ) (h : k < thr) :
    findFrame (act.filter (fun f => decide (f.idx < thr))) k = findFrame act k := by
  induction act with
  | nil => rfl
  | cons f0 rest ih =>
    rw [List.filter_cons]
    by_cases h0 : f0.idx = k
    · rw [if_pos (by simp [h0, h]), findFrame_cons_self f0 _ k h0,
        findFrame_cons_self f0 rest k h0]
    · by_cases hkeep : (f0.idx < thr)
      · rw [if_pos (by simp [hkeep]), findFrame_cons_ne f0 _ k h0,
          findFrame_cons_ne f0 rest k h0, ih]
      · rw [if_neg (by simp [hkeep]), findFrame_cons_ne f0 rest k h0, ih]

lemma findFrame_filter_dropped (act : List OFrame) (k thr : ℤ) (h : k < thr) :
    findFrame (act.filter (fun f => !decide (f.idx < thr))) k = none := by
  apply findFrame_eq_none
  intro f hf
  have := (List.mem_filter.mp hf).2
  simp only [Bool.not_eq_true', decide_eq_false_iff_not, not_lt] at this
  omega

/-- Flushing never changes the total value accumulated for any plane: a
flushed frame moves from the active list to the written list with the same
data. Requires the active indices to be duplicate-free. -/
lemma got_flush (st : St2) (thr k : ℤ) (hnd : (idxs st).Nodup) :
    got (flush_frames thr st) k = got st k := by
  rcases hmem : findFrame st.active k with _ | f
  · -- plane k not active: the flush moves only active frames
    have hknact : ∀ f ∈ st.active, f.idx ≠ k := by
      intro f hf
      have := List.find?_eq_none.mp hmem f hf
      simpa using this
    have h1 : findFrame (flush_frames thr st).active k = none := by
      apply findFrame_eq_none
      intro f hf
      exact hknact f (List.mem_filter.mp hf).1
    rw [got, h1, got, hmem]
    have h2 : k ∉ ((st.active.filter (fun f => decide (f.idx < thr))).map
        (fun f => (f.idx, f.data))).map Prod.fst := by
      intro hk
      simp only [List.map_map, List.mem_map] at hk
      obtain ⟨f, hf, hfk⟩ := hk
      exact hknact f (List.mem_filter.mp hf).1 hfk
    show (last_write (st.writes ++ _) k).getD zeroPlane = _
    rw [last_write_append, last_write_of_not_mem _ k h2]
  · have hfk : f.idx = k := by
      have := List.find?_some hmem
      simpa using this
    by_cases hk : k < thr
    · -- plane k is flushed: it leaves the active list and is written once
      have h1 : findFrame (flush_frames thr st).active k = none :=
        findFrame_filter_dropped st.active k thr hk
      have h2 : last_write ((st.active.filter (fun f => decide (f.idx < thr))).map
          (fun f => (f.idx, f.data))) k = some f.data := by
        apply last_write_map_frames
        · have hq := map_idx_filter st.active (fun x => decide (x < thr))
          rw [hq]
          exact List.Nodup.filter _ hnd
        · rw [findFrame_filter_flushed st.active k thr hk]
          exact hmem
      rw [got, h1, got, hmem]
      show (last_write (st.writes ++ _) k).getD zeroPlane = _
      rw [last_write_append, h2]
      rfl
    · -- plane k stays active
      have h1 : findFrame (flush_frames thr st).active k = some f := by
        show findFrame (st.active.filter _) k = some f
        rw [findFrame_filter_keep st.active k thr hk]
        exact hmem
      rw [got, h1, got, hmem]

lemma any_idx_iff (act : List OFrame) (k : ℤ) :
    act.any (fun f => decide (f.idx = k)) = true ↔ k ∈ act.map OFrame.idx := by
  rw [List.any_eq_true]
  constructor
  · rintro ⟨f, hf, hfk⟩
    simp only [decide_eq_true_eq] at hfk
    rw [← hfk]
    exact List.mem_map_of_mem _ hf
  · intro h
    obtain ⟨f, hf, hfk⟩ := List.mem_map.mp h
    exact ⟨f, hf, by simp [hfk]⟩

lemma got_add (act : List OFrame) (ws : List (ℤ × Plane)) (c : String)
    (cu : Option Cube) (k0 k : ℤ) (w : ℚ) (buf : Plane)
    (hws : last_write ws k0 = none) (p : ℕ) :
    got ⟨add_contribution act k0 w buf, ws, c, cu⟩ k p =
      got ⟨act, ws, c, cu⟩ k p + (if k = k0 then buf p * w else 0) := by
  rw [add_contribution]
  by_cases hany : act.any (fun f => decide (f.idx = k0)) = true
  · rw [if_pos hany]
    by_cases hk : k = k0
    · subst hk
      obtain ⟨f, hf, hfk⟩ := findFrame_isSome_of_any act k hany
      have h1 := findFrame_map_upd_self act k (updData w buf)
      simp only [got, h1, hf, Option.map_some']
      rw [if_pos hfk]
      simp [updData]
    · have h1 := findFrame_map_upd_ne act k0 k (updData w buf) hk
      simp only [got, h1]
      cases findFrame act k <;> simp [hk]
  · rw [if_neg hany]
    by_cases hk : k = k0
    · subst hk
      have h0 := findFrame_none_of_not_any act k hany
      have h2 : findFrame (⟨k, updData w buf zeroPlane⟩ :: act) k =
          some ⟨k, updData w buf zeroPlane⟩ := findFrame_cons_self _ _ k rfl
      simp only [got, h0, h2, hws]
      simp [updData, zeroPlane]
    · have h2 : findFrame (⟨k0, updData w buf zeroPlane⟩ :: act) k = findFrame act k :=
        findFrame_cons_ne _ _ k (fun hh => hk (by simpa using hh.symm))
      simp only [got, h2]
      cases findFrame act k <;> simp [hk]

lemma got_dist_fold (r : Rec) (buf : Plane) (ks : List ℤ) :
    ∀ (act : List OFrame) (ws : List (ℤ × Plane)) (c : String) (cu : Option Cube),
      ks.Nodup →
      (∀ k' ∈ ks, last_write ws k' = none) →
      ∀ (k : ℤ) (p : ℕ),
        got ⟨ks.foldl (fun act k =>
              if 0 < overlap r k then add_contribution act k (overlap r k) buf
              else act) act, ws, c, cu⟩ k p =
          got ⟨act, ws, c, cu⟩ k p +
            (if k ∈ ks ∧ 0 < overlap r k then buf p * overlap r k else 0) := by
  induction ks with
  | nil => intro act ws c cu _ _ k p; simp
  | cons k0 rest ih =>
    intro act ws c cu hnd hws k p
    obtain ⟨hk0nr, hndr⟩ := List.nodup_cons.mp hnd
    rw [List.foldl_cons]
    by_cases hpos : 0 < overlap r k0
    · rw [if_pos hpos]
      rw [ih (add_contribution act k0 (overlap r k0) buf) ws c cu hndr
        (fun k' h => hws k' (List.mem_cons_of_mem k0 h)) k p,
        got_add act ws c cu k0 k (overlap r k0) buf (hws k0 (List.mem_cons_self k0 rest)) p]
      by_cases hk : k = k0
      · subst hk
        simp [hk0nr, hpos]
      · simp [hk]
    · rw [if_neg hpos]
      rw [ih act ws c cu hndr (fun k' h => hws k' (List.mem_cons_of_mem k0 h)) k p]
      by_cases hk : k = k0
      · subst hk
        simp [hpos, hk0nr]
      · simp [hk]

lemma idxs_add_of_mem (act : List OFrame) (k : ℤ) (w : ℚ) (buf : Plane)
    (h : k ∈ act.map OFrame.idx) :
    (add_contribution act k w buf).map OFrame.idx = act.map OFrame.idx := by
  rw [add_contribution, if_pos ((any_idx_iff act k).mpr h), List.map_map]
  apply List.map_congr_left
  intro f _
  simp only [Function.comp_apply]
  by_cases hf : f.idx = k
  · rw [if_pos hf]
  · rw [if_neg hf]

lemma idxs_add_of_not_mem (act : List OFrame) (k : ℤ) (w : ℚ) (buf : Plane)
    (h : k ∉ act.map OFrame.idx) :
    (add_contribution act k w buf).map OFrame.idx = k :: act.map OFrame.idx := by
  rw [add_contribution, if_neg (fun hc => h ((any_idx_iff act k).mp hc)), List.map_cons]

lemma overlap_pos (r : Rec) (k : ℤ) (hre : r.rs < r.re)
    (h1 : k_start r ≤ k) (h2 : k ≤ k_end r) : 0 < overlap r k := by
  rw [overlap, sub_pos]
  have hfl : ((k_end r : ℚ)) ≤ r.re - eps := by
    calc ((k_end r : ℚ)) ≤ ⌊r.re - eps⌋ := by exact_mod_cast le_refl _
    _ ≤ r.re - eps := Int.floor_le _
  have hke : (k : ℚ) ≤ r.re - eps := by
    calc (k : ℚ) ≤ (k_end r : ℚ) := by exact_mod_cast h2
    _ ≤ r.re - eps := hfl
  have hepspos : (0:ℚ) < eps := by norm_num [eps]
  rcases eq_or_lt_of_le h1 with heq | hlt
  · -- k = k_start: the weight is min re (k+1) − rs
    have hrs_le : (k : ℚ) ≤ r.rs := by
      rw [← heq]
      exact_mod_cast Int.floor_le r.rs
    have hmax : max r.rs (k : ℚ) = r.rs := max_eq_left hrs_le
    rw [hmax]
    apply lt_min hre
    have hkk : ⌊r.rs⌋ = k := heq
    have hfloor := Int.lt_floor_add_one r.rs
    rw [hkk] at hfloor
    exact_mod_cast hfloor
  · -- k > k_start: the weight is min re (k+1) − k
    have hrs_le : r.rs ≤ (k : ℚ) := by
      have hca : (k_start r : ℚ) + 1 ≤ (k : ℚ) := by exact_mod_cast hlt
      have hfl2 := Int.lt_floor_add_one r.rs
      have hkk : ((⌊r.rs⌋ : ℤ) : ℚ) = ((k_start r : ℤ) : ℚ) := rfl
      rw [hkk] at hfl2
      linarith
    rw [max_eq_right hrs_le]
    apply lt_min
    · linarith
    · linarith

lemma overlap_nonpos_left (r : Rec) (k : ℤ) (h : k < k_start r) :
    overlap r k ≤ 0 := by
  rw [overlap, sub_nonpos]
  have h1 : (k : ℚ) + 1 ≤ r.rs := by
    have : (k + 1 : ℚ) ≤ (k_start r : ℚ) := by exact_mod_cast h
    calc (k : ℚ) + 1 ≤ (k_start r : ℚ) := by linarith
    _ ≤ r.rs := Int.floor_le _
  calc min r.re ((k : ℚ) + 1) ≤ (k : ℚ) + 1 := min_le_right _ _
  _ ≤ r.rs := h1
  _ ≤ max r.rs (k : ℚ) := le_max_left _ _

lemma mem_ksRange (r : Rec) (k : ℤ) :
    k ∈ ksRange r ↔ k_start r ≤ k ∧ k ≤ k_end r := by
  rw [ksRange]
  simp only [List.mem_map, List.mem_range]
  constructor
  · rintro ⟨n, hn, rfl⟩
    omega
  · rintro ⟨ha, hb⟩
    refine ⟨(k - k_start r).toNat, by omega, by omega⟩

lemma ksRange_nodup (r : Rec) : (ksRange r).Nodup := by
  rw [ksRange]
  refine List.Nodup.map ?_ (List.nodup_range _)
  intro a b hab
  have hab2 : (a : ℤ) = b := by
    dsimp only at hab
    omega
  exact_mod_cast hab2

/-- Distributing one input plane over `k_start .. k_end` keeps the active
index list a contiguous descending run starting at `lo = k_start`: indices
already present are updated in place, and each genuinely new index extends
the run at its head. -/
lemma dist_fold_shape (r : Rec) (buf : Plane) (lo : ℤ) (hlo : lo = k_start r)
    (hov : ∀ k : ℤ, lo ≤ k → k ≤ k_end r → 0 < overlap r k) :
    ∀ (n : ℕ) (act : List OFrame) (hi : ℤ),
      (n : ℤ) ≤ k_end r + 1 - lo →
      lo - 1 ≤ hi →
      act.map OFrame.idx = descList hi lo →
      (((List.range n).map (fun j : ℕ => lo + (j : ℤ))).foldl
          (fun act k =>
            if 0 < overlap r k then add_contribution act k (overlap r k) buf
            else act) act).map OFrame.idx =
        descList (max hi (lo + n - 1)) lo := by
  intro n
  induction n with
  | zero =>
    intro act hi _ hhi hshape
    simp only [List.range_zero, List.map_nil, List.foldl_nil, Nat.cast_zero]
    have hmax : hi ⊔ (lo + 0 - 1) = hi := by
      rw [max_def]
      split_ifs <;> omega
    rw [hmax]
    exact hshape
  | succ j ih =>
    intro act hi hn hhi hshape
    rw [List.range_succ, List.map_append, List.foldl_append]
    simp only [List.map_cons, List.map_nil, List.foldl_cons, List.foldl_nil]
    have hn' : ((j:ℕ) : ℤ) ≤ k_end r + 1 - lo := by push_cast at hn ⊢; omega
    have hmid := ih act hi hn' hhi hshape
    have hkle : lo + (j:ℤ) ≤ k_end r := by push_cast at hn; omega
    have hkpos : 0 < overlap r (lo + (j:ℤ)) := hov _ (by omega) hkle
    rw [if_pos hkpos]
    by_cases hmem : lo + (j:ℤ) ≤ max hi (lo + (j:ℤ) - 1)
    · have hin : lo + (j:ℤ) ∈ descList (max hi (lo + (j:ℤ) - 1)) lo :=
        (mem_descList _ _ _).mpr ⟨by omega, hmem⟩
      rw [idxs_add_of_mem _ _ _ _ (by rw [hmid]; exact hin), hmid]
      have hge : lo + (j:ℤ) ≤ hi := by
        rcases le_or_lt hi (lo + (j:ℤ) - 1) with h | h
        · rw [max_eq_right h] at hmem
          omega
        · rw [max_eq_left (by omega)] at hmem
          exact hmem
      have hmaxeq : hi ⊔ (lo + ((j:ℤ) + 1) - 1) = hi ⊔ (lo + (j:ℤ) - 1) := by
        rw [max_eq_left (by omega), max_eq_left (by omega)]
      have hcast : (((j:ℕ) + 1 : ℕ) : ℤ) = (j:ℤ) + 1 := by push_cast; ring
      rw [hcast, hmaxeq]
    · push_neg at hmem
      have hMi : max hi (lo + (j:ℤ) - 1) = lo + (j:ℤ) - 1 := by
        have h1 : lo + (j:ℤ) - 1 ≤ max hi (lo + (j:ℤ) - 1) := le_max_right _ _
        omega
      have hnotin : lo + (j:ℤ) ∉ descList (max hi (lo + (j:ℤ) - 1)) lo := by
        intro hc
        rw [mem_descList] at hc
        omega
      rw [idxs_add_of_not_mem _ _ _ _ (by rw [hmid]; exact hnotin), hmid]
      have hhile : hi ≤ lo + (j:ℤ) - 1 := by
        have h1 : hi ≤ max hi (lo + (j:ℤ) - 1) := le_max_left _ _
        omega
      have hmaxeq : hi ⊔ (lo + ((j:ℤ) + 1) - 1) = lo + (j:ℤ) := by
        rw [max_def]
        split_ifs <;> omega
      have hcast : (((j:ℕ) + 1 : ℕ) : ℤ) = (j:ℤ) + 1 := by push_cast; ring
      rw [hMi, hcast, hmaxeq, ← descList_cons _ _ (by omega)]

/-- The open-file correspondence maintained by the record loop: either no
input is open and `current_fits_name` is empty, or the open handle is
exactly the cube that `current_fits_name` resolves to. -/
def CurOk (resolver : String → Option Cube) (st : St2) : Prop :=
  (st.current = "" ∧ st.curr = none) ∨
    (st.current ≠ "" ∧ st.curr = resolver st.current ∧ (resolver st.current).isSome)

lemma got_congr (st1 st2 : St2) (ha : st1.active = st2.active)
    (hw : st1.writes = st2.writes) (k : ℤ) : got st1 k = got st2 k := by
  rw [got, got, ha, hw]

lemma step2_eq_none (resolver : String → Option Cube) (r : Rec) (st : St2)
    (hsrc : r.src ≠ "") (hcur : CurOk resolver st)
    (hrp : read_plane resolver r = none) :
    (step2 resolver st r).active = st.active ∧
      (step2 resolver st r).writes = st.writes ∧
      CurOk resolver (step2 resolver st r) := by
  rw [step2]
  by_cases heq : r.src = st.current
  · rw [if_pos heq]
    rcases hcur with ⟨hc, hcu⟩ | ⟨hne, hcu, hsome⟩
    · exact absurd (heq.trans hc) hsrc
    · rcases hres : resolver r.src with _ | c
      · have hnone : st.curr = none := by
          rw [hcu, ← heq, hres]
        simp only [hnone]
        exact ⟨by trivial, by trivial, Or.inr ⟨hne, hcu, hsome⟩⟩
      · have hsome2 : st.curr = some c := by
          rw [hcu, ← heq, hres]
        have hread : (if 0 ≤ r.l then c.get? r.l.toNat else none) = none := by
          rw [read_plane, hres] at hrp
          exact hrp
        simp only [hsome2, hread]
        exact ⟨by trivial, by trivial, Or.inr ⟨hne, hcu, hsome⟩⟩
  · rw [if_neg heq]
    rcases hres : resolver r.src with _ | c
    · exact ⟨rfl, rfl, Or.inl ⟨rfl, rfl⟩⟩
    · have hread : (if 0 ≤ r.l then c.get? r.l.toNat else none) = none := by
        rw [read_plane, hres] at hrp
        exact hrp
      simp only [hread]
      refine ⟨by trivial, by trivial, Or.inr ⟨hsrc, ?_, ?_⟩⟩
      · show some c = resolver r.src
        rw [hres]
      · show (resolver r.src).isSome
        rw [hres]
        rfl

lemma step2_eq_some (resolver : String → Option Cube) (r : Rec) (st : St2)
    (hsrc : r.src ≠ "") (hcur : CurOk resolver st) (buf : Plane)
    (hrp : read_plane resolver r = some buf) :
    step2 resolver st r = ⟨
      (ksRange r).foldl
        (fun act k =>
          if 0 < overlap r k then add_contribution act k (overlap r k) buf else act)
        (st.active.filter (fun f => !decide (f.idx < k_start r))),
      st.writes ++ (st.active.filter (fun f => decide (f.idx < k_start r))).map
        (fun f => (f.idx, f.data)),
      r.src, resolver r.src⟩ := by
  obtain ⟨c, hres, hread⟩ : ∃ c, resolver r.src = some c ∧
      (if 0 ≤ r.l then c.get? r.l.toNat else none) = some buf := by
    rw [read_plane] at hrp
    rcases hres : resolver r.src with _ | c
    · rw [hres] at hrp
      exact absurd hrp (by simp)
    · rw [hres] at hrp
      exact ⟨c, rfl, hrp⟩
  rw [step2]
  by_cases heq : r.src = st.current
  · rw [if_pos heq]
    rcases hcur with ⟨hc, _⟩ | ⟨hne, hcu, _⟩
    · exact absurd (heq.trans hc) hsrc
    · have hsome2 : st.curr = some c := by
        rw [hcu, ← heq, hres]
      simp only [hsome2, hread, flush_frames]
      rw [heq, ← hcu, hsome2]
  · rw [if_neg heq]
    simp only [hres, hread, flush_frames]

lemma k_end_ge (r : Rec) (hre : r.rs < r.re) : k_start r - 1 ≤ k_end r := by
  rw [k_start, k_end]
  apply Int.le_floor.mpr
  have h2 := Int.floor_le r.rs
  have heps : eps ≤ 1 := by norm_num [eps]
  push_cast
  linarith

lemma ksRange_nil (r : Rec) (h : k_end r < k_start r) : ksRange r = [] := by
  have h0 : (k_end r + 1 - k_start r).toNat = 0 := by omega
  rw [ksRange, h0]
  rfl

lemma flushed_keys (act : List OFrame) (thr : ℤ) :
    ((act.filter (fun f => decide (f.idx < thr))).map
        (fun f => (f.idx, f.data))).map Prod.fst =
      (act.map OFrame.idx).filter (fun x => decide (x < thr)) := by
  rw [List.map_map]
  have hcomp : (Prod.fst ∘ fun f : OFrame => (f.idx, f.data)) = OFrame.idx := rfl
  rw [hcomp]
  exact map_idx_filter act (fun x => decide (x < thr))

/-- The loop invariant of the assembler relative to the last flush threshold
`T` and the global straddle bound `S`: the active list is a contiguous
descending index run from some `hi < 2^31` down to exactly `T`, of width at
most `S`; every plane written so far lies strictly below `T` and no plane is
written twice; and the open-input correspondence holds. -/
def INV (resolver : String → Option Cube) (T S : ℤ) (st : St2) : Prop :=
  (st.active = [] ∨ ∃ hi, T ≤ hi ∧ hi - T + 1 ≤ S ∧ hi < 2147483647 ∧
    st.active.map OFrame.idx = descList hi T) ∧
  (∀ w ∈ st.writes, w.1 < T) ∧
  (st.writes.map Prod.fst).Nodup ∧
  CurOk resolver st

/-- One record preserves the invariant (with the threshold advancing to
`k_start r` when the record's plane is actually read) and changes every
plane's accumulated total by exactly the record's contribution. -/
lemma step2_master (resolver : String → Option Cube) (r : Rec) (st : St2) (T S : ℤ)
    (hT : T ≤ k_start r) (hS : k_end r - k_start r + 1 ≤ S) (hS0 : 0 ≤ S)
    (hsrc : r.src ≠ "") (hre : r.rs < r.re) (hk31 : k_end r < 2147483647)
    (hinv : INV resolver T S st) :
    ∃ T', (T' = T ∨ T' = k_start r) ∧ INV resolver T' S (step2 resolver st r) ∧
      ∀ (k : ℤ) (p : ℕ),
        got (step2 resolver st r) k p = got st k p + rec_contrib resolver r k p := by
  obtain ⟨hsh, hwlt, hwnd, hcur⟩ := hinv
  rcases hrp : read_plane resolver r with _ | buf
  · -- the record is skipped: open or read failure
    obtain ⟨ha, hw, hcur'⟩ := step2_eq_none resolver r st hsrc hcur hrp
    refine ⟨T, Or.inl rfl, ⟨?_, ?_, ?_, hcur'⟩, ?_⟩
    · rw [ha]; exact hsh
    · rw [hw]; exact hwlt
    · rw [hw]; exact hwnd
    · intro k p
      rw [got_congr _ st ha hw k, rec_contrib, hrp]
      simp [zeroPlane]
  · -- the record is processed: flush below k_start, then distribute
    have heq := step2_eq_some resolver r st hsrc hcur buf hrp
    have hidxnd : (st.active.map OFrame.idx).Nodup := by
      rcases hsh with h | ⟨hi, _, _, _, hsh⟩
      · rw [h]; exact List.nodup_nil
      · rw [hsh]; exact descList_nodup _ _
    have hrsome : (resolver r.src).isSome := by
      rw [read_plane] at hrp
      rcases hres : resolver r.src with _ | c
      · rw [hres] at hrp; exact absurd hrp (by simp)
      · rfl
    have hkge := k_end_ge r hre
    -- keys of the planes flushed by this record
    have hflk : ∀ x ∈ ((st.active.filter (fun f => decide (f.idx < k_start r))).map
        (fun f => (f.idx, f.data))).map Prod.fst, x < k_start r := by
      intro x hx
      rw [flushed_keys] at hx
      have := List.of_mem_filter hx
      simpa using this
    have hflk2 : ∀ x ∈ ((st.active.filter (fun f => decide (f.idx < k_start r))).map
        (fun f => (f.idx, f.data))).map Prod.fst, x ∈ st.active.map OFrame.idx := by
      intro x hx
      rw [flushed_keys] at hx
      exact List.mem_of_mem_filter hx
    -- got delta
    have hgot : ∀ (k : ℤ) (p : ℕ),
        got (step2 resolver st r) k p = got st k p + rec_contrib resolver r k p := by
      intro k p
      rw [heq]
      have hws : ∀ k' ∈ ksRange r,
          last_write (st.writes ++ (st.active.filter
            (fun f => decide (f.idx < k_start r))).map (fun f => (f.idx, f.data))) k' =
            none := by
        intro k' hk'
        have hk'ge : k_start r ≤ k' := ((mem_ksRange r k').mp hk').1
        apply last_write_of_not_mem
        rw [List.map_append, List.mem_append]
        rintro (hin | hin)
        · obtain ⟨w, hw1, hw2⟩ := List.mem_map.mp hin
          have hwT := hwlt w hw1
          omega
        · have := hflk k' hin
          omega
      rw [got_dist_fold r buf (ksRange r) _ _ _ _ (ksRange_nodup r) hws k p]
      have hflushgot : got ⟨st.active.filter (fun f => !decide (f.idx < k_start r)),
          st.writes ++ (st.active.filter (fun f => decide (f.idx < k_start r))).map
            (fun f => (f.idx, f.data)), r.src, resolver r.src⟩ k =
          got st k := by
        have h1 : got ⟨st.active.filter (fun f => !decide (f.idx < k_start r)),
            st.writes ++ (st.active.filter (fun f => decide (f.idx < k_start r))).map
              (fun f => (f.idx, f.data)), r.src, resolver r.src⟩ k =
            got (flush_frames (k_start r) st) k :=
          got_congr _ _ rfl rfl k
        rw [h1, got_flush st (k_start r) k hidxnd]
      rw [hflushgot, rec_contrib]
      simp only [hrp]
      by_cases hc : k_start r ≤ k ∧ k ≤ k_end r ∧ 0 < overlap r k
      · rw [if_pos ⟨(mem_ksRange r k).mpr ⟨hc.1, hc.2.1⟩, hc.2.2⟩, if_pos hc]
      · have hc2 : ¬(k ∈ ksRange r ∧ 0 < overlap r k) := by
          intro hcon
          obtain ⟨hmem, hpos⟩ := hcon
          obtain ⟨h1, h2⟩ := (mem_ksRange r k).mp hmem
          exact hc ⟨h1, h2, hpos⟩
        rw [if_neg hc2, if_neg hc]
        simp [zeroPlane]
    -- the shape part: the filtered active list is a descending run from
    -- some hi1 down to k_start r
    have hidxge : ∀ x ∈ st.active.map OFrame.idx, T ≤ x := by
      rcases hsh with h | ⟨hi, _, _, _, hsh⟩
      · rw [h]; intro x hx; simp at hx
      · rw [hsh]; intro x hx; exact ((mem_descList _ _ _).mp hx).1
    obtain ⟨hi1, hhi1ge, hhi1S, hhi131, hshape1⟩ :
        ∃ hi1, k_start r - 1 ≤ hi1 ∧ hi1 - k_start r + 1 ≤ S ∧ hi1 < 2147483647 ∧
          (st.active.filter (fun f => !decide (f.idx < k_start r))).map OFrame.idx =
            descList hi1 (k_start r) := by
      rcases hsh with h | ⟨hi, hThi, hbound, h31, hshape⟩
      · refine ⟨k_start r - 1, le_refl _, by omega, by omega, ?_⟩
        rw [h, descList_nil _ _ (by omega)]
        rfl
      · have hfil : (st.active.filter (fun f => !decide (f.idx < k_start r))).map
            OFrame.idx = descList hi (k_start r) := by
          have h1 := map_idx_filter st.active (fun x => !decide (x < k_start r))
          rw [h1, hshape, filter_descList_ge hi T (k_start r) hT]
        by_cases hik : k_start r ≤ hi
        · exact ⟨hi, by omega, by omega, h31, hfil⟩
        · refine ⟨k_start r - 1, le_refl _, by omega, by omega, ?_⟩
          rw [hfil, descList_nil _ _ (by omega), descList_nil _ _ (by omega)]
    refine ⟨k_start r, Or.inr rfl, ⟨?_, ?_, ?_, ?_⟩, hgot⟩
    · -- INV1
      rw [heq]
      show ((ksRange r).foldl _ _) = [] ∨ _
      by_cases hks : k_end r < k_start r
      · rw [ksRange_nil r hks]
        simp only [List.foldl_nil]
        by_cases hik : k_start r ≤ hi1
        · exact Or.inr ⟨hi1, hik, hhi1S, hhi131, hshape1⟩
        · left
          apply List.map_eq_nil_iff.mp
          rw [hshape1, descList_nil _ _ (by omega)]
      · push_neg at hks
        have hn : (((k_end r + 1 - k_start r).toNat : ℕ) : ℤ) =
            k_end r + 1 - k_start r := by omega
        have hshape2 := dist_fold_shape r buf (k_start r) rfl
          (fun k hk1 hk2 => overlap_pos r k hre hk1 hk2)
          (k_end r + 1 - k_start r).toNat
          (st.active.filter (fun f => !decide (f.idx < k_start r)))
          hi1 (by omega) hhi1ge hshape1
        have harg : k_start r + (((k_end r + 1 - k_start r).toNat : ℕ) : ℤ) - 1 =
            k_end r := by omega
        rw [harg] at hshape2
        right
        refine ⟨max hi1 (k_end r), le_max_of_le_right hks, ?_, ?_, ?_⟩
        · rw [max_def]
          split_ifs <;> omega
        · rw [max_def]
          split_ifs <;> omega
        · exact hshape2
    · -- INV2
      rw [heq]
      intro w hw
      rcases List.mem_append.mp hw with hin | hin
      · have := hwlt w hin
        omega
      · obtain ⟨f, hf, rfl⟩ := List.mem_map.mp hin
        have := List.of_mem_filter hf
        simpa using this
    · -- INV3
      rw [heq]
      show ((st.writes ++ _).map Prod.fst).Nodup
      rw [List.map_append, List.nodup_append]
      refine ⟨hwnd, ?_, ?_⟩
      · rw [flushed_keys]
        exact List.Nodup.filter _ hidxnd
      · intro x hx1 hx2
        obtain ⟨w, hw1, hw2⟩ := List.mem_map.mp hx1
        have h1 := hwlt w hw1
        have h2 : T ≤ x := hidxge x (hflk2 x hx2)
        omega
    · -- INV4
      rw [heq]
      exact Or.inr ⟨hsrc, rfl, hrsome⟩

lemma sum_contrib_shift (resolver : String → Option Cube) (k : ℤ) (rest : List Rec) :
    ∀ (a : Plane) (p : ℕ),
      (rest.foldl (fun acc r => fun p => acc p + rec_contrib resolver r k p) a) p =
        a p + (rest.foldl (fun acc r => fun p => acc p + rec_contrib resolver r k p)
          zeroPlane) p := by
  induction rest with
  | nil => intro a p; simp [zeroPlane]
  | cons r rest ih =>
    intro a p
    rw [List.foldl_cons, List.foldl_cons, ih, ih (fun p => zeroPlane p + _)]
    simp [zeroPlane]
    ring

lemma sum_contrib_cons (resolver : String → Option Cube) (r : Rec) (rest : List Rec)
    (k : ℤ) (p : ℕ) :
    sum_contrib resolver (r :: rest) k p =
      rec_contrib resolver r k p + sum_contrib resolver rest k p := by
  have h := sum_contrib_shift resolver k rest
    ((fun acc r => fun p => acc p + rec_contrib resolver r k p) zeroPlane r) p
  have hstep : (fun acc r => fun p => acc p + rec_contrib resolver r k p) zeroPlane r p +
      (rest.foldl (fun acc r => fun p => acc p + rec_contrib resolver r k p) zeroPlane) p =
      rec_contrib resolver r k p + sum_contrib resolver rest k p := by
    simp only [zeroPlane, sum_contrib]
    ring
  exact h.trans hstep

lemma k_start_mono (a b : Rec) (h : a.rs ≤ b.rs) : k_start a ≤ k_start b :=
  Int.floor_le_floor h

lemma fold2_master (resolver : String → Option Cube) (S : ℤ) (rows : List Rec) :
    ∀ (st : St2) (T : ℤ),
      List.Pairwise (fun a b => a.rs ≤ b.rs) rows →
      (∀ r ∈ rows, T ≤ k_start r) →
      (∀ r ∈ rows, k_end r - k_start r + 1 ≤ S) →
      0 ≤ S →
      (∀ r ∈ rows, r.src ≠ "") →
      (∀ r ∈ rows, r.rs < r.re) →
      (∀ r ∈ rows, k_end r < 2147483647) →
      INV resolver T S st →
      ∃ T', INV resolver T' S (rows.foldl (step2 resolver) st) ∧
        ∀ (k : ℤ) (p : ℕ),
          got (rows.foldl (step2 resolver) st) k p =
            got st k p + sum_contrib resolver rows k p := by
  induction rows with
  | nil =>
    intro st T _ _ _ _ _ _ _ hinv
    exact ⟨T, hinv, by intro k p; simp [sum_contrib, zeroPlane]⟩
  | cons r rest ih =>
    intro st T hmono hT hS hS0 hsrc hre hk31 hinv
    obtain ⟨hmr, hmono'⟩ := List.pairwise_cons.mp hmono
    obtain ⟨T1, hT1or, hinv1, hgot1⟩ := step2_master resolver r st T S
      (hT r (by simp)) (hS r (by simp)) hS0 (hsrc r (by simp)) (hre r (by simp))
      (hk31 r (by simp)) hinv
    have hT1le : ∀ r' ∈ rest, T1 ≤ k_start r' := by
      intro r' hr'
      rcases hT1or with rfl | rfl
      · exact hT r' (by simp [hr'])
      · exact k_start_mono r r' (hmr r' hr')
    obtain ⟨T', hinv', hgot'⟩ := ih (step2 resolver st r) T1 hmono' hT1le
      (fun x hx => hS x (by simp [hx])) hS0 (fun x hx => hsrc x (by simp [hx]))
      (fun x hx => hre x (by simp [hx])) (fun x hx => hk31 x (by simp [hx])) hinv1
    refine ⟨T', by rw [List.foldl_cons]; exact hinv', ?_⟩
    intro k p
    rw [List.foldl_cons, hgot' k p, hgot1 k p, sum_contrib_cons]
    ring

lemma scanl2_master (resolver : String → Option Cube) (S : ℤ) (rows : List Rec) :
    ∀ (st : St2) (T : ℤ),
      List.Pairwise (fun a b => a.rs ≤ b.rs) rows →
      (∀ r ∈ rows, T ≤ k_start r) →
      (∀ r ∈ rows, k_end r - k_start r + 1 ≤ S) →
      0 ≤ S →
      (∀ r ∈ rows, r.src ≠ "") →
      (∀ r ∈ rows, r.rs < r.re) →
      (∀ r ∈ rows, k_end r < 2147483647) →
      INV resolver T S st →
      ∀ st' ∈ rows.scanl (step2 resolver) st, ∃ T', INV resolver T' S st' := by
  induction rows with
  | nil =>
    intro st T _ _ _ _ _ _ _ hinv st' hst'
    rw [List.scanl_nil, List.mem_singleton] at hst'
    exact hst' ▸ ⟨T, hinv⟩
  | cons r rest ih =>
    intro st T hmono hT hS hS0 hsrc hre hk31 hinv st' hst'
    rw [List.scanl_cons] at hst'
    simp only [List.singleton_append, List.mem_cons] at hst'
    rcases hst' with rfl | hst'
    · exact ⟨T, hinv⟩
    · obtain ⟨hmr, hmono'⟩ := List.pairwise_cons.mp hmono
      obtain ⟨T1, hT1or, hinv1, _⟩ := step2_master resolver r st T S
        (hT r (by simp)) (hS r (by simp)) hS0 (hsrc r (by simp)) (hre r (by simp))
        (hk31 r (by simp)) hinv
      have hT1le : ∀ r' ∈ rest, T1 ≤ k_start r' := by
        intro r' hr'
        rcases hT1or with rfl | rfl
        · exact hT r' (by simp [hr'])
        · exact k_start_mono r r' (hmr r' hr')
      exact ih (step2 resolver st r) T1 hmono' hT1le
        (fun x hx => hS x (by simp [hx])) hS0 (fun x hx => hsrc x (by simp [hx]))
        (fun x hx => hre x (by simp [hx])) (fun x hx => hk31 x (by simp [hx]))
        hinv1 st' hst'

lemma foldr_min_le (l : List ℤ) (a : ℤ) : ∀ x ∈ l, l.foldr min a ≤ x := by
  induction l with
  | nil => intro x hx; simp at hx
  | cons y l ih =>
    intro x hx
    rcases List.mem_cons.mp hx with rfl | hx
    · exact min_le_left _ _
    · exact le_trans (min_le_right _ _) (ih x hx)

lemma le_foldr_max (l : List ℤ) (a : ℤ) : ∀ x ∈ l, x ≤ l.foldr max a := by
  induction l with
  | nil => intro x hx; simp at hx
  | cons y l ih =>
    intro x hx
    rcases List.mem_cons.mp hx with rfl | hx
    · exact le_max_left _ _
    · exact le_trans (ih x hx) (le_max_right _ _)

lemma init_le_foldr_max (l : List ℤ) (a : ℤ) : a ≤ l.foldr max a := by
  induction l with
  | nil => exact le_refl a
  | cons y l ih => exact le_trans ih (le_max_right _ _)

lemma INV_init (resolver : String → Option Cube) (T S : ℤ) :
    INV resolver T S initSt2 := by
  refine ⟨Or.inl rfl, ?_, ?_, Or.inl ⟨rfl, rfl⟩⟩
  · intro w hw
    simp [initSt2] at hw
  · simp [initSt2]

/-- Streaming accumulation theorem: for a manifest in non-decreasing `rs`
order with well-formed rows, every plane of the finished cube equals the sum
of the per-record contributions the assembler performs. -/
lemma cube_plane_eq_sum_contrib (resolver : String → Option Cube) (m : List Rec)
    (hmono : List.Pairwise (fun a b => a.rs ≤ b.rs) m)
    (hsrc : ∀ r ∈ m, r.src ≠ "") (hre : ∀ r ∈ m, r.rs < r.re)
    (hk31 : ∀ r ∈ m, k_end r < 2147483647) (k : ℤ) :
    cube_plane resolver m k = sum_contrib resolver m k := by
  funext p
  set T0 := (m.map k_start).foldr min 0 with hT0
  set S := (m.map (fun r => k_end r - k_start r + 1)).foldr max 0 with hSdef
  have hT : ∀ r ∈ m, T0 ≤ k_start r := fun r hr =>
    foldr_min_le _ 0 _ (List.mem_map_of_mem k_start hr)
  have hS : ∀ r ∈ m, k_end r - k_start r + 1 ≤ S := fun r hr =>
    le_foldr_max _ 0 _ (List.mem_map_of_mem _ hr)
  have hS0 : (0:ℤ) ≤ S := init_le_foldr_max _ 0
  obtain ⟨T', hinvF, hgotF⟩ := fold2_master resolver S m initSt2 T0 hmono hT hS hS0
    hsrc hre hk31 (INV_init resolver T0 S)
  set stF := m.foldl (step2 resolver) initSt2 with hstF
  have hidxndF : (stF.active.map OFrame.idx).Nodup := by
    rcases hinvF.1 with h | ⟨hi, _, _, _, hsh⟩
    · rw [h]; exact List.nodup_nil
    · rw [hsh]; exact descList_nodup _ _
  have hempty : (flush_frames 2147483647 stF).active = [] := by
    apply List.map_eq_nil_iff.mp
    show (stF.active.filter _).map OFrame.idx = []
    rw [map_idx_filter stF.active (fun x => !decide (x < 2147483647))]
    rcases hinvF.1 with h | ⟨hi, hThi, _, h31, hsh⟩
    · rw [h]; rfl
    · rw [hsh, filter_descList_ge hi T' 2147483647 (by omega),
        descList_nil _ _ (by omega)]
  have hflushgot : got (flush_frames 2147483647 stF) k = got stF k :=
    got_flush stF 2147483647 k hidxndF
  have hfinal : cube_plane resolver m k = got (flush_frames 2147483647 stF) k := by
    rw [cube_plane, got, hempty]
    rfl
  calc cube_plane resolver m k p
      = got (flush_frames 2147483647 stF) k p := congrFun hfinal p
    _ = got stF k p := congrFun hflushgot p
    _ = got initSt2 k p + sum_contrib resolver m k p := hgotF k p
    _ = sum_contrib resolver m k p := by
        rw [show got initSt2 k p = 0 from rfl, zero_add]

/-- Claim C1 as amended: for a manifest in non-decreasing `rs` order (with
well-formed rows: nonempty source names, `rs < re`, and `⌊re − ε⌋` below
`INT32_MAX` so the final flush reaches every plane), the assembler adds
`w · plane_i` to plane `k` for `k ∈ [k₀, k₁]` exactly when `w > 0`, and on
completion plane `k` of the output cube equals the sum over all records of
the contribution so performed — the overlap weight restricted to
`k ≤ k₁ = ⌊re − ε⌋`, with unreadable records contributing zero. This differs
from the claim's unrestricted `Σ max(0, min(re,k+1) − max(rs,k)) · plane_i`
exactly on records with `re` strictly inside `(k, k + ε)`, see the
counterexample. -/
theorem c1_overlap_accumulation (resolver : String → Option Cube) (m : List Rec)
    (hmono : List.Pairwise (fun a b => a.rs ≤ b.rs) m)
    (hsrc : ∀ r ∈ m, r.src ≠ "") (hre : ∀ r ∈ m, r.rs < r.re)
    (hk31 : ∀ r ∈ m, k_end r < 2147483647) (k : ℤ) :
    cube_plane resolver m k = sum_contrib resolver m k :=
  cube_plane_eq_sum_contrib resolver m hmono hsrc hre hk31 k

/-- Evaluate a floor from its two bounds. -/
lemma floor_eq_of (n : ℤ) (x : ℚ) (h1 : (n : ℚ) ≤ x) (h2 : x < (n : ℚ) + 1) :
    ⌊x⌋ = n :=
  Int.floor_eq_iff.mpr ⟨h1, h2⟩

/-- A resampled end time strictly inside `(1, 1 + ε)`: `1 + 1/(2·10⁹)`. -/
def c1re : ℚ := 1 + 1 / 2000000000

/-- First record of the C1 counterexample manifest: plane 0 of `a.txt`
(all ones) resampled onto `[0, 1 + 1/(2·10⁹))`. -/
def c1rA : Rec := ⟨0, 0, c1re, "a.txt", 0, 0, c1re⟩

/-- Second record: plane 1 of `a.txt` (all zeros) onto `[1 + 1/(2·10⁹), 2)`. -/
def c1rB : Rec := ⟨1, c1re, 2, "a.txt", 1, c1re, 2⟩

/-- The C1 counterexample manifest. -/
def c1m : List Rec := [c1rA, c1rB]

/-- The image store of the C1 counterexample: `a.txt` is a two-plane cube,
plane 0 all ones, plane 1 all zeros. -/
def res1 : String → Option Cube :=
  fun s => if s = "a.txt" then some [fun _ => (1 : ℚ), fun _ => (0 : ℚ)] else none

lemma c1_ksA : k_start c1rA = 0 := by
  rw [k_start, show c1rA.rs = 0 from rfl, Int.floor_zero]

lemma c1_keA : k_end c1rA = 0 := by
  rw [k_end, show c1rA.re - eps = 1 + 1/2000000000 - 1/1000000000 from rfl]
  exact floor_eq_of 0 _ (by norm_num) (by norm_num)

lemma c1_ksB : k_start c1rB = 1 := by
  rw [k_start, show c1rB.rs = 1 + 1/2000000000 from rfl]
  exact floor_eq_of 1 _ (by norm_num) (by norm_num)

lemma c1_keB : k_end c1rB = 1 := by
  rw [k_end, show c1rB.re - eps = 2 - 1/1000000000 from rfl]
  exact floor_eq_of 1 _ (by norm_num) (by norm_num)

lemma c1_ovA : overlap c1rA 1 = 1/2000000000 := by
  rw [overlap, show c1rA.re = 1 + 1/2000000000 from rfl,
    show c1rA.rs = 0 from rfl]
  push_cast
  rw [min_eq_left (by norm_num : (1:ℚ) + 1/2000000000 ≤ 1 + 1),
    max_eq_right (by norm_num : (0:ℚ) ≤ 1)]
  norm_num

lemma c1_ovB : overlap c1rB 1 = 1 - 1/2000000000 := by
  rw [overlap, show c1rB.re = 2 from rfl,
    show c1rB.rs = 1 + 1/2000000000 from rfl]
  push_cast
  rw [min_eq_left (by norm_num : (2:ℚ) ≤ 1 + 1),
    max_eq_left (by norm_num : (1:ℚ) + 1/2000000000 ≥ 1)]
  norm_num

lemma c1_readA : read_plane res1 c1rA = some (fun _ => (1:ℚ)) := rfl

lemma c1_readB : read_plane res1 c1rB = some (fun _ => (0:ℚ)) := rfl

lemma c1_sovA : spec_overlap c1rA 1 = 1/2000000000 := by
  rw [spec_overlap, c1_ovA,
    max_eq_right (by norm_num : (0:ℚ) ≤ 1/2000000000)]

lemma c1_sovB : spec_overlap c1rB 1 = 1 - 1/2000000000 := by
  rw [spec_overlap, c1_ovB,
    max_eq_right (by norm_num : (0:ℚ) ≤ 1 - 1/2000000000)]

lemma c1_mono : List.Pairwise (fun a b => a.rs ≤ b.rs) c1m := by
  simp only [c1m, List.pairwise_cons, List.mem_singleton, List.pairwise_singleton,
    forall_eq, List.not_mem_nil, false_implies, implies_true, and_true]
  rw [show c1rA.rs = 0 from rfl, show c1rB.rs = 1 + 1/2000000000 from rfl]
  norm_num

lemma c1_hsrc : ∀ r ∈ c1m, r.src ≠ "" := by
  intro r hr
  simp only [c1m, List.mem_cons, List.mem_singleton, List.not_mem_nil, or_false] at hr
  rcases hr with h | h <;> subst h <;> decide

lemma c1_hre : ∀ r ∈ c1m, r.rs < r.re := by
  intro r hr
  simp only [c1m, List.mem_cons, List.mem_singleton, List.not_mem_nil, or_false] at hr
  rcases hr with h | h <;> subst h
  · rw [show c1rA.rs = 0 from rfl, show c1rA.re = 1 + 1/2000000000 from rfl]
    norm_num
  · rw [show c1rB.rs = 1 + 1/2000000000 from rfl, show c1rB.re = 2 from rfl]
    norm_num

lemma c1_hk31 : ∀ r ∈ c1m, k_end r < 2147483647 := by
  intro r hr
  simp only [c1m, List.mem_cons, List.mem_singleton, List.not_mem_nil, or_false] at hr
  rcases hr with h | h <;> subst h
  · rw [c1_keA]; norm_num
  · rw [c1_keB]; norm_num

/-- C1 counterexample: a record whose resampled end `re` lies strictly inside
`(k, k + ε)` (here `re = 1 + 1/(2·10⁹)`, `k = 1`) has `k₁ = ⌊re − ε⌋ = 0 < k`,
so the assembler never adds its positive weight `min(re,k+1) − max(rs,k) =
1/(2·10⁹)` to plane `k`; the claimed unrestricted sum
`Σ_i max(0, min(re_i, k+1) − max(rs_i, k)) · plane_i` includes it, so the
finished plane 1 (zero) differs from the claimed value `1/(2·10⁹)`. -/
theorem c1_counterexample :
    List.Pairwise (fun a b => a.rs ≤ b.rs) c1m ∧
      cube_plane res1 c1m 1 0 ≠ ideal_sum res1 c1m 1 0 := by
  refine ⟨c1_mono, ?_⟩
  have hA : rec_contrib res1 c1rA 1 = zeroPlane := by
    simp only [rec_contrib, c1_readA, c1_ksA, c1_keA]
    have hnc : ¬((0:ℤ) ≤ (1:ℤ) ∧ (1:ℤ) ≤ (0:ℤ) ∧ 0 < overlap c1rA 1) := by
      intro h
      exact absurd h.2.1 (by norm_num)
    rw [if_neg hnc]
  have hB : rec_contrib res1 c1rB 1 = zeroPlane := by
    simp only [rec_contrib, c1_readB, c1_ksB, c1_keB]
    have hc : ((1:ℤ) ≤ (1:ℤ) ∧ (1:ℤ) ≤ (1:ℤ) ∧ 0 < overlap c1rB 1) :=
      ⟨le_refl _, le_refl _, by rw [c1_ovB]; norm_num⟩
    rw [if_pos hc]
    funext p
    simp [zeroPlane]
  have h1 : sum_contrib res1 c1m 1 0 = 0 := by
    simp only [sum_contrib, c1m, List.foldl_cons, List.foldl_nil, hA, hB, zeroPlane]
    norm_num
  have h2 : ideal_sum res1 c1m 1 0 = 1/2000000000 := by
    simp only [ideal_sum, c1m, List.foldl_cons, List.foldl_nil, c1_readA, c1_readB,
      c1_sovA, c1_sovB, zeroPlane]
    norm_num
  have hq := congrFun (cube_plane_eq_sum_contrib res1 c1m c1_mono c1_hsrc c1_hre c1_hk31 1) 0
  rw [hq, h1, h2]
  norm_num

/-- Witness for C1: `c1_overlap_accumulation` instantiated on the concrete
two-record manifest `c1m` with image store `res1`, at plane 1. -/
theorem c1_overlap_accumulation_witness :
    cube_plane res1 c1m 1 = sum_contrib res1 c1m 1 :=
  c1_overlap_accumulation res1 c1m c1_mono c1_hsrc c1_hre c1_hk31 1

/-- Constant planes of the C3 source cube. -/
def c3v1 : Plane := fun _ => 1

/-- Second plane of the C3 source cube. -/
def c3v2 : Plane := fun _ => 2

/-- Third plane of the C3 source cube. -/
def c3v3 : Plane := fun _ => 3

/-- The C3 source cube: three constant planes 1, 2, 3. -/
def cube3 : Cube := [c3v1, c3v2, c3v3]

/-- The image store of the C3 input: `a.txt` resolves to `cube3`. -/
def res3 : String → Option Cube := fun s => if s = "a.txt" then some cube3 else none

/-- C3 manifest row 0: plane 0 onto `[0, 1)`. -/
def c3r0 : Rec := ⟨0, 0, 1, "a.txt", 0, 0, 1⟩

/-- C3 manifest row 1: plane 1 onto `[2, 3)`. -/
def c3r1 : Rec := ⟨1, 2, 3, "a.txt", 1, 2, 3⟩

/-- C3 manifest row 2: a regression — plane 2 onto `[0, 1)` again, with
`rs = 0` below the previously seen `rs = 2`. -/
def c3r2 : Rec := ⟨2, 0, 1, "a.txt", 2, 0, 1⟩

/-- The C3 regression manifest. -/
def c3m : List Rec := [c3r0, c3r1, c3r2]

lemma c3r0_src : c3r0.src = "a.txt" := rfl

lemma c3r1_src : c3r1.src = "a.txt" := rfl

lemma c3r2_src : c3r2.src = "a.txt" := rfl

lemma c3r0_l : c3r0.l = 0 := rfl

lemma c3r1_l : c3r1.l = 1 := rfl

lemma c3r2_l : c3r2.l = 2 := rfl

lemma c3_ks0 : k_start c3r0 = 0 := by
  rw [k_start, show c3r0.rs = 0 from rfl, Int.floor_zero]

lemma c3_ke0 : k_end c3r0 = 0 := by
  rw [k_end, show c3r0.re - eps = 1 - 1/1000000000 from rfl]
  exact floor_eq_of 0 _ (by norm_num) (by norm_num)

lemma c3_ks1 : k_start c3r1 = 2 := by
  rw [k_start, show c3r1.rs = 2 from rfl]
  exact floor_eq_of 2 _ (by norm_num) (by norm_num)

lemma c3_ke1 : k_end c3r1 = 2 := by
  rw [k_end, show c3r1.re - eps = 3 - 1/1000000000 from rfl]
  exact floor_eq_of 2 _ (by norm_num) (by norm_num)

lemma c3_ks2 : k_start c3r2 = 0 := by
  rw [k_start, show c3r2.rs = 0 from rfl, Int.floor_zero]

lemma c3_ke2 : k_end c3r2 = 0 := by
  rw [k_end, show c3r2.re - eps = 1 - 1/1000000000 from rfl]
  exact floor_eq_of 0 _ (by norm_num) (by norm_num)

lemma c3_ov0 : overlap c3r0 0 = 1 := by
  rw [overlap, show c3r0.re = 1 from rfl, show c3r0.rs = 0 from rfl]
  push_cast
  rw [min_eq_left (by norm_num : (1:ℚ) ≤ 0 + 1), max_self]
  norm_num

lemma c3_ov1 : overlap c3r1 2 = 1 := by
  rw [overlap, show c3r1.re = 3 from rfl, show c3r1.rs = 2 from rfl]
  push_cast
  rw [min_eq_left (by norm_num : (3:ℚ) ≤ 2 + 1), max_self]
  norm_num

lemma c3_ov2 : overlap c3r2 0 = 1 := by
  rw [overlap, show c3r2.re = 1 from rfl, show c3r2.rs = 0 from rfl]
  push_cast
  rw [min_eq_left (by norm_num : (1:ℚ) ≤ 0 + 1), max_self]
  norm_num

/-- C3: the assembler performs no monotonicity check and never aborts: on the
regression manifest `c3m` (`rs` sequence 0, 2, 0) the run completes, plane 0
is written twice (keys 0, 0, 2 — the copy flushed before record 1 and the
stale re-created copy at the final flush), and the finished plane 0 holds
only the regressing record's contribution 3, not the accumulated 1 + 3. -/
theorem c3_regression_not_fatal :
    ¬ List.Pairwise (fun a b => a.rs ≤ b.rs) c3m ∧
      (run_applyts res3 c3m).writes.map Prod.fst = [0, 0, 2] ∧
      cube_plane res3 c3m 0 0 = 3 := by
  refine ⟨?_, ?_⟩
  · intro h
    simp only [c3m, List.pairwise_cons, List.mem_cons, List.mem_singleton] at h
    have h12 := h.1 c3r2 (Or.inr (Or.inl rfl))
    rw [show c3r0.rs = 0 from rfl, show c3r2.rs = 0 from rfl] at h12
    have h22 := h.2.1 c3r2 (Or.inl rfl)
    rw [show c3r1.rs = 2 from rfl, show c3r2.rs = 0 from rfl] at h22
    norm_num at h22
  constructor
  · simp [run_applyts, c3m, step2, initSt2, res3, flush_frames, add_contribution,
      ksRange, c3_ks0, c3_ke0, c3_ks1, c3_ke1, c3_ks2, c3_ke2, c3_ov0, c3_ov1,
      c3_ov2, cube3, List.range_succ, c3r0_src, c3r1_src, c3r2_src, c3r0_l,
      c3r1_l, c3r2_l]
  · simp [cube_plane, run_applyts, c3m, step2, initSt2, res3, flush_frames,
      add_contribution, ksRange, c3_ks0, c3_ke0, c3_ks1, c3_ke1, c3_ks2, c3_ke2,
      c3_ov0, c3_ov1, c3_ov2, cube3, List.range_succ, last_write, updData,
      zeroPlane, c3v3, c3r0_src, c3r1_src, c3r2_src, c3r0_l, c3r1_l, c3r2_l]

/-- C6 manifest row 0: plane 0 onto `[0, 2)` (straddles planes 0 and 1). -/
def c6r0 : Rec := ⟨0, 0, 2, "a.txt", 0, 0, 2⟩

/-- C6 manifest row 1: plane 1 onto `[2, 4)` (straddles planes 2 and 3). -/
def c6r1 : Rec := ⟨1, 2, 4, "a.txt", 1, 2, 4⟩

/-- The C6 manifest: monotone, well-formed, two straddling records. -/
def c6m : List Rec := [c6r0, c6r1]

lemma c6r0_src : c6r0.src = "a.txt" := rfl

lemma c6r1_src : c6r1.src = "a.txt" := rfl

lemma c6r0_l : c6r0.l = 0 := rfl

lemma c6r1_l : c6r1.l = 1 := rfl

lemma c6_ks0 : k_start c6r0 = 0 := by
  rw [k_start, show c6r0.rs = 0 from rfl, Int.floor_zero]

lemma c6_ke0 : k_end c6r0 = 1 := by
  rw [k_end, show c6r0.re - eps = 2 - 1/1000000000 from rfl]
  exact floor_eq_of 1 _ (by norm_num) (by norm_num)

lemma c6_ks1 : k_start c6r1 = 2 := by
  rw [k_start, show c6r1.rs = 2 from rfl]
  exact floor_eq_of 2 _ (by norm_num) (by norm_num)

lemma c6_ke1 : k_end c6r1 = 3 := by
  rw [k_end, show c6r1.re - eps = 4 - 1/1000000000 from rfl]
  exact floor_eq_of 3 _ (by norm_num) (by norm_num)

lemma c6_ov00 : overlap c6r0 0 = 1 := by
  rw [overlap, show c6r0.re = 2 from rfl, show c6r0.rs = 0 from rfl]
  push_cast
  rw [min_eq_right (by norm_num : (0:ℚ) + 1 ≤ 2), max_self]
  norm_num

lemma c6_ov01 : overlap c6r0 1 = 1 := by
  rw [overlap, show c6r0.re = 2 from rfl, show c6r0.rs = 0 from rfl]
  push_cast
  rw [min_eq_left (by norm_num : (2:ℚ) ≤ 1 + 1),
    max_eq_right (by norm_num : (0:ℚ) ≤ 1)]
  norm_num

lemma c6_ov12 : overlap c6r1 2 = 1 := by
  rw [overlap, show c6r1.re = 4 from rfl, show c6r1.rs = 2 from rfl]
  push_cast
  rw [min_eq_right (by norm_num : (2:ℚ) + 1 ≤ 4), max_self]
  norm_num

lemma c6_ov13 : overlap c6r1 3 = 1 := by
  rw [overlap, show c6r1.re = 4 from rfl, show c6r1.rs = 2 from rfl]
  push_cast
  rw [min_eq_left (by norm_num : (4:ℚ) ≤ 3 + 1),
    max_eq_right (by norm_num : (2:ℚ) ≤ 3)]
  norm_num

/-- C6 counterexample: on the monotone well-formed manifest `c6m` the planes
are NOT written in ascending index order: record 0 straddles planes 0 and 1,
the head-pushed active list holds them as `[1, 0]`, and the flush before
record 1 writes them in that (descending) order; likewise the final flush
writes `[3, 2]`. The full write sequence is `1, 0, 3, 2`. -/
theorem c6_counterexample :
    (run_applyts res3 c6m).writes.map Prod.fst = [1, 0, 3, 2] ∧
      ¬ List.Chain' (fun a b : ℤ => a ≤ b)
        ((run_applyts res3 c6m).writes.map Prod.fst) := by
  have h : (run_applyts res3 c6m).writes.map Prod.fst = [1, 0, 3, 2] := by
    simp [run_applyts, c6m, step2, initSt2, res3, flush_frames, add_contribution,
      ksRange, c6_ks0, c6_ke0, c6_ks1, c6_ke1, c6_ov00, c6_ov01, c6_ov12,
      c6_ov13, cube3, List.range_succ, c6r0_src, c6r1_src, c6r0_l, c6r1_l]
  refine ⟨h, ?_⟩
  rw [h]
  intro hc
  rw [List.chain'_cons] at hc
  exact absurd hc.1 (by decide)

lemma descList_pairwise (hi lo : ℤ) :
    List.Pairwise (fun a b : ℤ => a > b) (descList hi lo) :=
  List.chain'_iff_pairwise.mp (descList_chain hi lo)

/-- C6 as amended: under a monotone well-formed manifest no plane is ever
written twice, and every flush pass — the gate before a record at any
threshold, and the final flush — emits its batch of planes in strictly
DESCENDING index order (the active list is a head-pushed stack kept strictly
descending), not ascending as claimed. -/
theorem c6_flush_descending (resolver : String → Option Cube) (m : List Rec)
    (hmono : List.Pairwise (fun a b => a.rs ≤ b.rs) m)
    (hsrc : ∀ r ∈ m, r.src ≠ "") (hre : ∀ r ∈ m, r.rs < r.re)
    (hk31 : ∀ r ∈ m, k_end r < 2147483647) :
    ((run_applyts resolver m).writes.map Prod.fst).Nodup ∧
      ∀ st ∈ m.scanl (step2 resolver) initSt2, ∀ thr : ℤ,
        List.Pairwise (fun a b : ℤ => a > b)
          (((st.active.filter (fun f => decide (f.idx < thr))).map
              (fun f => (f.idx, f.data))).map Prod.fst) := by
  set T0 := (m.map k_start).foldr min 0 with hT0
  set S := (m.map (fun r => k_end r - k_start r + 1)).foldr max 0 with hSdef
  have hT : ∀ r ∈ m, T0 ≤ k_start r := fun r hr =>
    foldr_min_le _ 0 _ (List.mem_map_of_mem k_start hr)
  have hS : ∀ r ∈ m, k_end r - k_start r + 1 ≤ S := fun r hr =>
    le_foldr_max _ 0 _ (List.mem_map_of_mem _ hr)
  have hS0 : (0:ℤ) ≤ S := init_le_foldr_max _ 0
  constructor
  · obtain ⟨T', hinvF, -⟩ := fold2_master resolver S m initSt2 T0 hmono hT hS hS0
      hsrc hre hk31 (INV_init resolver T0 S)
    set stF := m.foldl (step2 resolver) initSt2
    obtain ⟨hsh, hwlt, hwnd, -⟩ := hinvF
    rw [run_applyts]
    show ((stF.writes ++ _).map Prod.fst).Nodup
    rw [List.map_append, flushed_keys]
    have hidx_nd : (stF.active.map OFrame.idx).Nodup := by
      rcases hsh with h | ⟨hi, _, _, _, h⟩
      · rw [h]; exact List.nodup_nil
      · rw [h]; exact descList_nodup _ _
    refine List.Nodup.append hwnd (hidx_nd.filter _) ?_
    intro x hx1 hx2
    have hxlt : x < T' := by
      obtain ⟨w, hw, rfl⟩ := List.mem_map.mp hx1
      exact hwlt w hw
    have hxge : T' ≤ x := by
      have hmem := List.mem_of_mem_filter hx2
      rcases hsh with h | ⟨hi, _, _, _, h⟩
      · rw [h] at hmem; simp at hmem
      · rw [h] at hmem; exact ((mem_descList _ _ _).mp hmem).1
    omega
  · intro st hst thr
    obtain ⟨T', hinv⟩ := scanl2_master resolver S m initSt2 T0 hmono hT hS hS0
      hsrc hre hk31 (INV_init resolver T0 S) st hst
    obtain ⟨hsh, -, -, -⟩ := hinv
    rw [flushed_keys]
    rcases hsh with h | ⟨hi, _, _, _, h⟩
    · rw [h]; simp
    · rw [h]
      exact (descList_pairwise _ _).filter _

/-- Witness for C6: `c6_flush_descending` instantiated on the concrete
manifest `c6m` with image store `res3`. -/
theorem c6_flush_descending_witness :
    ((run_applyts res3 c6m).writes.map Prod.fst).Nodup ∧
      ∀ st ∈ c6m.scanl (step2 res3) initSt2, ∀ thr : ℤ,
        List.Pairwise (fun a b : ℤ => a > b)
          (((st.active.filter (fun f => decide (f.idx < thr))).map
              (fun f => (f.idx, f.data))).map Prod.fst) :=
  c6_flush_descending res3 c6m
    (by
      simp only [c6m, List.pairwise_cons, List.mem_singleton, forall_eq,
        List.pairwise_singleton, List.not_mem_nil, false_implies, implies_true,
        and_true]
      rw [show c6r0.rs = 0 from rfl, show c6r1.rs = 2 from rfl]
      norm_num)
    (by
      intro r hr
      simp only [c6m, List.mem_cons, List.mem_singleton, List.not_mem_nil,
        or_false] at hr
      rcases hr with h | h <;> subst h <;> decide)
    (by
      intro r hr
      simp only [c6m, List.mem_cons, List.mem_singleton, List.not_mem_nil,
        or_false] at hr
      rcases hr with h | h <;> subst h
      · rw [show c6r0.rs = 0 from rfl, show c6r0.re = 2 from rfl]; norm_num
      · rw [show c6r1.rs = 2 from rfl, show c6r1.re = 4 from rfl]; norm_num)
    (by
      intro r hr
      simp only [c6m, List.mem_cons, List.mem_singleton, List.not_mem_nil,
        or_false] at hr
      rcases hr with h | h <;> subst h
      · rw [c6_ke0]; norm_num
      · rw [c6_ke1]; norm_num)

lemma max_out_idx_le (m : List Rec) : ∀ a b : ℤ, a ≤ b → (∀ r ∈ m, k_end r ≤ b) →
    m.foldl (fun acc r => if k_end r > acc then k_end r else acc) a ≤ b := by
  induction m with
  | nil =>
    intro a b ha _
    simpa using ha
  | cons r rest ih =>
    intro a b ha h
    rw [List.foldl_cons]
    refine ih _ b ?_ (fun x hx => h x (List.mem_cons_of_mem r hx))
    by_cases hc : k_end r > a
    · rw [if_pos hc]
      exact h r (List.mem_cons_self r rest)
    · rw [if_neg hc]
      exact ha

lemma le_max_out_idx_init (m : List Rec) : ∀ a : ℤ,
    a ≤ m.foldl (fun acc r => if k_end r > acc then k_end r else acc) a := by
  induction m with
  | nil =>
    intro a
    simp
  | cons r rest ih =>
    intro a
    rw [List.foldl_cons]
    refine le_trans ?_ (ih _)
    by_cases hc : k_end r > a
    · rw [if_pos hc]
      omega
    · rw [if_neg hc]

lemma le_max_out_idx_mem (m : List Rec) : ∀ a : ℤ, ∀ r ∈ m,
    k_end r ≤ m.foldl (fun acc r => if k_end r > acc then k_end r else acc) a := by
  induction m with
  | nil =>
    intro a r hr
    simp at hr
  | cons x rest ih =>
    intro a r hr
    rw [List.foldl_cons]
    rcases List.mem_cons.mp hr with rfl | hr
    · refine le_trans ?_ (le_max_out_idx_init rest _)
      by_cases hc : k_end r > a
      · rw [if_pos hc]
      · rw [if_neg hc]
        omega
    · exact ih _ r hr

lemma k_end_boundary (r : Rec) (n : ℤ) (h : r.re = (n : ℚ)) : k_end r = n - 1 := by
  rw [k_end, h]
  refine floor_eq_of (n - 1) _ ?_ ?_
  · push_cast
    simp only [eps]
    linarith
  · push_cast
    simp only [eps]
    linarith

/-- C7 confirmed: with `M` the largest `re` in the manifest (and
`⌊M − ε⌋ ≥ −1`, as holds whenever the manifest is nonempty with nonnegative
times), pass 1 computes `max_out_idx = ⌊M − ε⌋` and the output cube is
created with exactly `K = ⌊M − ε⌋ + 1` planes; and a record whose `re` is an
exact integer `n` has `k₁ = n − 1`, so it neither extends the cube to plane
`n` nor contributes anything to it. -/
theorem c7_cube_depth (resolver : String → Option Cube) (m : List Rec) (M : ℚ)
    (hM : M ∈ m.map Rec.re) (hmax : ∀ r ∈ m, r.re ≤ M)
    (h0 : -1 ≤ ⌊M - eps⌋) :
    cube_depth m = ⌊M - eps⌋ + 1 ∧
      ∀ r ∈ m, ∀ n : ℤ, r.re = (n : ℚ) →
        k_end r = n - 1 ∧ rec_contrib resolver r n = zeroPlane := by
  constructor
  · obtain ⟨r0, hr0, hre0⟩ := List.mem_map.mp hM
    have hub : max_out_idx m ≤ ⌊M - eps⌋ := by
      refine max_out_idx_le m (-1) _ h0 ?_
      intro r hr
      exact Int.floor_le_floor (sub_le_sub_right (hmax r hr) eps)
    have hlb : ⌊M - eps⌋ ≤ max_out_idx m := by
      have h1 := le_max_out_idx_mem m (-1) r0 hr0
      rw [k_end, hre0] at h1
      exact h1
    rw [cube_depth]
    omega
  · intro r hr n hn
    have hke := k_end_boundary r n hn
    refine ⟨hke, ?_⟩
    rcases hrp : read_plane resolver r with _ | buf
    · simp only [rec_contrib, hrp]
    · simp only [rec_contrib, hrp]
      rw [if_neg]
      intro hcon
      rw [hke] at hcon
      omega

/-- C7 manifest row 0: `re = 1`. -/
def c7r0 : Rec := ⟨0, 0, 1, "a.txt", 0, 0, 1⟩

/-- C7 manifest row 1: `re = 3/2`, the manifest maximum. -/
def c7r1 : Rec := ⟨1, 1, 3/2, "a.txt", 1, 1, 3/2⟩

/-- The C7 witness manifest. -/
def c7m : List Rec := [c7r0, c7r1]

lemma c7_floorM : ⌊(3/2 : ℚ) - eps⌋ = 1 := by
  rw [show (3/2 : ℚ) - eps = 3/2 - 1/1000000000 from rfl]
  exact floor_eq_of 1 _ (by norm_num) (by norm_num)

/-- Witness for C7: `c7_cube_depth` instantiated on the two-record manifest
`c7m` whose largest `re` is `3/2`. -/
theorem c7_cube_depth_witness :
    cube_depth c7m = ⌊(3/2 : ℚ) - eps⌋ + 1 ∧
      ∀ r ∈ c7m, ∀ n : ℤ, r.re = (n : ℚ) →
        k_end r = n - 1 ∧ rec_contrib res3 r n = zeroPlane :=
  c7_cube_depth res3 c7m (3/2)
    (by
      simp only [c7m, List.map_cons, List.map_nil, List.mem_cons,
        List.mem_singleton]
      right
      left
      trivial)
    (by
      intro r hr
      simp only [c7m, List.mem_cons, List.mem_singleton, List.not_mem_nil,
        or_false] at hr
      rcases hr with h | h <;> subst h
      · rw [show c7r0.re = 1 from rfl]
        norm_num
      · rw [show c7r1.re = 3/2 from rfl])
    (by
      rw [c7_floorM]
      norm_num)

/-- The single C9 input file, built with `dt = 1`: two rows whose frame
`[0, 3)` lasts three output samples. -/
def c9file : TFile := ⟨"s_1.txt", true, [(0, 0), (1, 3)]⟩

/-- The C9 scan list. -/
def c9files : List TFile := [c9file]

/-- The manifest row stage 1 emits from `c9files` with
`tstart = 0, tend = 10, dt = 1`. -/
def c9rec : Rec := ⟨0, 0, 3, "s_1.txt", 1, 0, 3⟩

/-- The image store of the C9 counterexample. -/
def res9 : String → Option Cube :=
  fun s => if s = "s_1.txt" then some [fun _ => (0:ℚ), fun _ => (0:ℚ)] else none

lemma c9rec_src : c9rec.src = "s_1.txt" := rfl

lemma c9rec_l : c9rec.l = 1 := rfl

lemma c9_ks : k_start c9rec = 0 := by
  rw [k_start, show c9rec.rs = 0 from rfl, Int.floor_zero]

lemma c9_ke : k_end c9rec = 2 := by
  rw [k_end, show c9rec.re - eps = 3 - 1/1000000000 from rfl]
  exact floor_eq_of 2 _ (by norm_num) (by norm_num)

lemma c9_ov0 : overlap c9rec 0 = 1 := by
  rw [overlap, show c9rec.re = 3 from rfl, show c9rec.rs = 0 from rfl]
  push_cast
  rw [min_eq_right (by norm_num : (0:ℚ) + 1 ≤ 3), max_self]
  norm_num

lemma c9_ov1 : overlap c9rec 1 = 1 := by
  rw [overlap, show c9rec.re = 3 from rfl, show c9rec.rs = 0 from rfl]
  push_cast
  rw [min_eq_right (by norm_num : (1:ℚ) + 1 ≤ 3),
    max_eq_right (by norm_num : (0:ℚ) ≤ 1)]
  norm_num

lemma c9_ov2 : overlap c9rec 2 = 1 := by
  rw [overlap, show c9rec.re = 3 from rfl, show c9rec.rs = 0 from rfl]
  push_cast
  rw [min_eq_left (by norm_num : (3:ℚ) ≤ 2 + 1),
    max_eq_right (by norm_num : (0:ℚ) ≤ 2)]
  norm_num

/-- C9 counterexample: a manifest built by stage 1 with `dt = 1` from a
single frame lasting three output samples drives the active set to 3
entries after the first record — above the claimed bound
`⌈1/dt⌉ + 1 = 2`. The claimed bound only accounts for frames no longer
than one second. -/
theorem c9_counterexample :
    (process_telemetry 0 10 1 c9files).out = [c9rec] ∧
      (step2 res9 initSt2 c9rec).active.length = 3 ∧
      ¬ (((step2 res9 initSt2 c9rec).active.length : ℤ) ≤ ⌈(1:ℚ)/1⌉ + 1) := by
  have hceil : ⌈(1:ℚ)/1⌉ = 1 := by
    rw [show (1:ℚ)/1 = 1 by norm_num, Int.ceil_one]
  have h2 : (step2 res9 initSt2 c9rec).active.length = 3 := by
    simp [step2, initSt2, res9, flush_frames, add_contribution, ksRange,
      c9_ks, c9_ke, c9_ov0, c9_ov1, c9_ov2, List.range_succ, c9rec_src, c9rec_l]
  refine ⟨?_, h2, ?_⟩
  · norm_num [process_telemetry, c9files, c9file, processFile, processRow,
      basename, List.foldl, c9rec]
    decide
  · rw [h2, hceil]
    decide

lemma floor_sub_le_ceil (a b : ℚ) : ⌊a⌋ - ⌊b⌋ ≤ ⌈a - b⌉ := by
  have h1 : a ≤ (⌈a - b⌉ : ℚ) + b := by
    have h := Int.le_ceil (a - b)
    linarith
  have h2 := Int.floor_le_floor h1
  rw [Int.floor_int_add] at h2
  omega

/-- C9 as amended: the memory bound on the active set is governed by the
resampled record width, not by `⌈1/dt⌉`: if every record of a monotone
well-formed manifest satisfies `re − rs ≤ C` (i.e. no input frame lasts more
than `C` output samples; `C = (max frame duration)/dt`), then at every
instant of the run the active set holds at most `⌈C⌉ + 1` entries. The
claimed `⌈1/dt⌉ + 1` is the special case of frames lasting at most one
second and is exceeded by longer frames. -/
theorem c9_active_bound (resolver : String → Option Cube) (m : List Rec) (C : ℚ)
    (hmono : List.Pairwise (fun a b => a.rs ≤ b.rs) m)
    (hsrc : ∀ r ∈ m, r.src ≠ "") (hre : ∀ r ∈ m, r.rs < r.re)
    (hk31 : ∀ r ∈ m, k_end r < 2147483647)
    (hC : ∀ r ∈ m, r.re - r.rs ≤ C) (hC0 : 0 ≤ C) :
    ∀ st ∈ m.scanl (step2 resolver) initSt2,
      (st.active.length : ℤ) ≤ ⌈C⌉ + 1 := by
  intro st hst
  set T0 := (m.map k_start).foldr min 0 with hT0
  have hT : ∀ r ∈ m, T0 ≤ k_start r := fun r hr =>
    foldr_min_le _ 0 _ (List.mem_map_of_mem k_start hr)
  have hS : ∀ r ∈ m, k_end r - k_start r + 1 ≤ ⌈C⌉ + 1 := by
    intro r hr
    have h1 : k_end r - k_start r ≤ ⌈r.re - eps - r.rs⌉ := by
      rw [k_end, k_start]
      exact floor_sub_le_ceil _ _
    have h2 : ⌈r.re - eps - r.rs⌉ ≤ ⌈C⌉ := by
      refine Int.ceil_le_ceil ?_
      have h3 := hC r hr
      have h4 : (0:ℚ) < eps := by
        simp only [eps]
        norm_num
      linarith
    omega
  have hceil0 : (0:ℤ) ≤ ⌈C⌉ := Int.ceil_nonneg hC0
  have hS0 : (0:ℤ) ≤ ⌈C⌉ + 1 := by omega
  obtain ⟨T', hinv⟩ := scanl2_master resolver (⌈C⌉ + 1) m initSt2 T0 hmono hT hS
    hS0 hsrc hre hk31 (INV_init resolver T0 (⌈C⌉ + 1)) st hst
  obtain ⟨hsh, -, -, -⟩ := hinv
  rcases hsh with h | ⟨hi, hTle, hwid, h31, h⟩
  · rw [h]
    simp only [List.length_nil, Nat.cast_zero]
    exact hS0
  · have hlen : st.active.length = (st.active.map OFrame.idx).length :=
      (List.length_map _ _).symm
    rw [hlen, h, length_descList]
    have htn : ((hi + 1 - T').toNat : ℤ) = hi + 1 - T' :=
      Int.toNat_of_nonneg (by omega)
    rw [htn]
    linarith

/-- Witness for the amended C9: the bound `⌈C⌉ + 1 = 3` on the manifest
`c6m` (records of resampled width 2), at the state reached after its first
record. -/
theorem c9_active_bound_witness :
    (((step2 res3 initSt2 c6r0).active.length : ℤ)) ≤ ⌈(2:ℚ)⌉ + 1 :=
  c9_active_bound res3 c6m 2
    (by
      simp only [c6m, List.pairwise_cons, List.mem_singleton, forall_eq,
        List.pairwise_singleton, List.not_mem_nil, false_implies, implies_true,
        and_true]
      rw [show c6r0.rs = 0 from rfl, show c6r1.rs = 2 from rfl]
      norm_num)
    (by
      intro r hr
      simp only [c6m, List.mem_cons, List.mem_singleton, List.not_mem_nil,
        or_false] at hr
      rcases hr with h | h <;> subst h <;> decide)
    (by
      intro r hr
      simp only [c6m, List.mem_cons, List.mem_singleton, List.not_mem_nil,
        or_false] at hr
      rcases hr with h | h <;> subst h
      · rw [show c6r0.rs = 0 from rfl, show c6r0.re = 2 from rfl]
        norm_num
      · rw [show c6r1.rs = 2 from rfl, show c6r1.re = 4 from rfl]
        norm_num)
    (by
      intro r hr
      simp only [c6m, List.mem_cons, List.mem_singleton, List.not_mem_nil,
        or_false] at hr
      rcases hr with h | h <;> subst h
      · rw [c6_ke0]
        norm_num
      · rw [c6_ke1]
        norm_num)
    (by
      intro r hr
      simp only [c6m, List.mem_cons, List.mem_singleton, List.not_mem_nil,
        or_false] at hr
      rcases hr with h | h <;> subst h
      · rw [show c6r0.re = 2 from rfl, show c6r0.rs = 0 from rfl]
        norm_num
      · rw [show c6r1.re = 4 from rfl, show c6r1.rs = 2 from rfl]
        norm_num)
    (by norm_num)
    (step2 res3 initSt2 c6r0)
    (by
      simp only [c6m, List.scanl_cons, List.scanl_nil, List.singleton_append,
        List.mem_cons]
      right
      left
      trivial)

end Resample
